import Mathlib

/-!
# Verification of the goldbug classical-cipher library

Shallow embedding of `goldbug/cipher.py` and `goldbug/util.py`.

Modelling conventions:
* Python strings are `List Char`; string slicing, `str.join`, `str.rstrip`
  and friends are translated to the corresponding list operations.
* Python `dict` objects are association lists (`List (Char × α)`) with
  Python's insertion semantics: inserting an existing key overwrites it in
  place, a new key is appended at the end.  `dict(zip(ks, vs))` becomes
  `dfromList (ks.zip vs)`.
* Python's `str.lower` / `str.upper` / `str.isupper` are modelled by the
  ASCII case functions `Char.toLower` / `Char.toUpper` / `Char.isUpper`;
  the texts and alphabets in the specification are ASCII.
* Python integers are `Int` (or `Nat` where the source value is clearly a
  count); Python `%` on integers with a positive modulus agrees with
  `Int.emod` / `Nat.mod`.
* Fallible operations return `Option`, with `none` for a raised exception.
-/

/-! ## Python dicts as association lists -/

/-- Python dict lookup `d.get(c)`: the value stored at key `c`, if any. -/
def dget {α : Type} (d : List (Char × α)) (c : Char) : Option α :=
  (d.find? (fun p => p.fst == c)).map Prod.snd

/-- Python dict insertion `d[k] = v`: overwrite an existing key in place,
append a new key at the end. -/
def dinsert {α : Type} (d : List (Char × α)) (k : Char) (v : α) :
    List (Char × α) :=
  if d.any (fun p => p.fst == k) then
    d.map (fun p => if p.fst == k then (k, v) else p)
  else
    d ++ [(k, v)]

/-- `dict(pairs)`: build a Python dict from a list of key/value pairs. -/
def dfromList {α : Type} (ps : List (Char × α)) : List (Char × α) :=
  ps.foldl (fun d p => dinsert d p.fst p.snd) []

/-! ## `goldbug.util.frequency_analysis`

```python
def frequency_analysis(text, ngram=1):
    freqs, total = collections.defaultdict(int), 0
    for i in range(len(text) - ngram + 1):
        freqs[text[i:i + ngram]] += 1
        total += 1
    for gram in freqs:
        freqs[gram] /= float(total)
    return dict(freqs)
```

The division `freqs[gram] /= float(total)` is modelled with exact rational
arithmetic (`ℚ`); floating point itself is not embedded.
The resulting dict is the map sending each distinct n-gram (in first
occurrence order, which is Python's dict iteration order here) to its
count divided by the total number of n-gram windows. -/

/-- The transformation applied to one character of the text. -/
def mscChar (mapping : List (Char × Char)) (c : Char) : Char :=
  let r := (dget mapping c.toLower).getD c
  if c.isUpper then r.toUpper else r.toLower

/-- `MonoalphabeticSubstitutionCipher.encrypt` / `.decrypt` with the given
mapping dict. -/
def mscApply (mapping : List (Char × Char)) (text : List Char) : List Char :=
  text.map (mscChar mapping)

/-- `string.ascii_lowercase`. -/
def asciiLowercase : List Char := "abcdefghijklmnopqrstuvwxyz".toList

/-- `string.ascii_uppercase`. -/
def asciiUppercase : List Char := "ABCDEFGHIJKLMNOPQRSTUVWXYZ".toList

theorem lower_char_facts : ∀ c ∈ asciiLowercase, c.isUpper = false ∧ c.toLower = c := by
  decide

/-- A successful dict lookup means the key/value pair is in the dict. -/
theorem dget_mem {α : Type} (d : List (Char × α)) (c : Char) (v : α)
    (h : dget d c = some v) : (c, v) ∈ d := by
  unfold dget at h
  cases hf : d.find? (fun p => p.fst == c) with
  | none => rw [hf] at h; simp at h
  | some p =>
    rw [hf] at h
    simp at h
    have hmem := List.mem_of_find?_eq_some hf
    have hpred := List.find?_some hf
    simp only [beq_iff_eq] at hpred
    have : p = (c, v) := by
      cases p with
      | mk a b => simp_all
    rwa [← this]

/-- Single-character roundtrip for a monoalphabetic substitution whose
decrypt mapping inverts its encrypt mapping into lowercase letters. -/
theorem msc_roundtrip_char (enc dec : List (Char × Char))
    (hinv : ∀ c v, dget enc c = some v → dget dec v = some c ∧ v ∈ asciiLowercase)
    (c : Char) (hc : c ∈ asciiLowercase) (hdom : (dget enc c).isSome) :
    mscChar dec (mscChar enc c) = c := by
  obtain ⟨v, hv⟩ := Option.isSome_iff_exists.mp hdom
  obtain ⟨hcu, hcl⟩ := lower_char_facts c hc
  obtain ⟨hdec, hvlc⟩ := hinv c v hv
  obtain ⟨hvu, hvl⟩ := lower_char_facts v hvlc
  have h1 : mscChar enc c = v := by
    unfold mscChar
    rw [hcl, hv, hcu]
    simpa using hvl
  have h2 : mscChar dec v = c := by
    unfold mscChar
    rw [hvl, hdec, hvu]
    simpa using hcl
  rw [h1, h2]

/-- Text-level roundtrip for a monoalphabetic substitution. -/
theorem msc_roundtrip (enc dec : List (Char × Char))
    (hinv : ∀ c v, dget enc c = some v → dget dec v = some c ∧ v ∈ asciiLowercase)
    (text : List Char)
    (h : ∀ c ∈ text, c ∈ asciiLowercase ∧ (dget enc c).isSome) :
    mscApply dec (mscApply enc text) = text := by
  unfold mscApply
  rw [List.map_map]
  have : ∀ c ∈ text, (mscChar dec ∘ mscChar enc) c = id c := by
    intro c hc
    exact msc_roundtrip_char enc dec hinv c (h c hc).1 (h c hc).2
  rw [List.map_congr_left this, List.map_id]

/-! ## `Caesar` (`goldbug/cipher.py`, lines 124-142)

```python
def __init__(self, key):
    self.key = int(key) % 26
    shifted = [chr(ord('a') + (ord(c) - ord('a') + key) % 26) for c in
               string.ascii_lowercase]
    self.encrypt_mapping = dict(zip(string.ascii_lowercase, shifted))
    self.decrypt_mapping = dict(zip(shifted, string.ascii_lowercase))
```
-/

/-- `chr(ord('a') + (ord(c) - ord('a') + key) % 26)`. -/
def caesarShift (key : Int) (c : Char) : Char :=
  Char.ofNat (97 + (((c.toNat : Int) - 97 + key) % 26).toNat)

/-- The `shifted` list from `Caesar.__init__`. -/
def caesarShifted (key : Int) : List Char := asciiLowercase.map (caesarShift key)

namespace Caesar

def encrypt_mapping (key : Int) : List (Char × Char) :=
  dfromList (asciiLowercase.zip (caesarShifted key))

def decrypt_mapping (key : Int) : List (Char × Char) :=
  dfromList ((caesarShifted key).zip asciiLowercase)

def encrypt (key : Int) (text : List Char) : List Char :=
  mscApply (encrypt_mapping key) text

def decrypt (key : Int) (text : List Char) : List Char :=
  mscApply (decrypt_mapping key) text

end Caesar

/-- The Caesar shift only depends on the key modulo 26. -/
theorem caesarShift_emod (key : Int) (c : Char) :
    caesarShift key c = caesarShift (key % 26) c := by
  unfold caesarShift
  have h : ((c.toNat : Int) - 97 + key) % 26 =
      ((c.toNat : Int) - 97 + key % 26) % 26 := by
    omega
  rw [h]

theorem caesar_maps_emod (key : Int) :
    Caesar.encrypt_mapping key = Caesar.encrypt_mapping (key % 26) ∧
    Caesar.decrypt_mapping key = Caesar.decrypt_mapping (key % 26) := by
  have h : caesarShifted key = caesarShifted (key % 26) := by
    unfold caesarShifted
    exact List.map_congr_left (fun c _ => caesarShift_emod key c)
  unfold Caesar.encrypt_mapping Caesar.decrypt_mapping
  rw [h]
  exact ⟨rfl, rfl⟩

/-- The decided facts about the 26 distinct Caesar mappings: the decrypt
dict inverts the encrypt dict into lowercase letters, and every lowercase
letter is in the encrypt dict's domain. -/
theorem caesar_dict_facts : ∀ r : Fin 26,
    (∀ p ∈ Caesar.encrypt_mapping (r : Nat),
      dget (Caesar.decrypt_mapping (r : Nat)) p.2 = some p.1 ∧
      p.2 ∈ asciiLowercase) ∧
    (∀ c ∈ asciiLowercase, (dget (Caesar.encrypt_mapping (r : Nat)) c).isSome) := by
  decide

/-- CLAIM C1: for every monoalphabetic substitution cipher whose validly
constructed key yields a decrypt mapping inverting the encrypt mapping
(into the lowercase alphabet), decrypt ∘ encrypt is the identity on texts
drawn from the cipher's alphabet; in particular this holds for `Caesar`
with any integer key on lowercase alphabet text. -/
theorem msc_decrypt_encrypt_id :
    (∀ enc dec : List (Char × Char),
      (∀ c v, dget enc c = some v → dget dec v = some c ∧ v ∈ asciiLowercase) →
      ∀ text : List Char,
        (∀ c ∈ text, c ∈ asciiLowercase ∧ (dget enc c).isSome) →
        mscApply dec (mscApply enc text) = text) ∧
    (∀ (key : Int) (text : List Char), (∀ c ∈ text, c ∈ asciiLowercase) →
      Caesar.decrypt key (Caesar.encrypt key text) = text) := by
  constructor
  · exact msc_roundtrip
  · intro key text htext
    have hr : (0 : Int) ≤ key % 26 := by omega
    have hrlt : key % 26 < 26 := by omega
    set r : Nat := (key % 26).toNat with hrdef
    have hcast : (r : Int) = key % 26 := Int.toNat_of_nonneg hr
    have hrb : r < 26 := by omega
    have hfacts := caesar_dict_facts ⟨r, hrb⟩
    unfold Caesar.decrypt Caesar.encrypt
    rw [(caesar_maps_emod key).1, (caesar_maps_emod key).2, ← hcast]
    refine msc_roundtrip _ _ ?_ text (fun c hc => ⟨htext c hc, ?_⟩)
    · intro c v hv
      exact hfacts.1 (c, v) (dget_mem _ c v hv)
    · exact hfacts.2 c (htext c hc)

/-- Witness for C1 at a concrete key and text. -/
theorem msc_decrypt_encrypt_id_witness :
    Caesar.decrypt 3 (Caesar.encrypt 3 "attackatdawn".toList) =
      "attackatdawn".toList :=
  msc_decrypt_encrypt_id.2 3 "attackatdawn".toList (by decide)

/-! ## Case handling facts about the character model -/

theorem uint32_le_iff (a b : UInt32) : a ≤ b ↔ a.toNat ≤ b.toNat := by
  rw [UInt32.le_def, BitVec.le_def]
  rfl

theorem char_isUpper_iff (c : Char) :
    c.isUpper = true ↔ (65 ≤ c.toNat ∧ c.toNat ≤ 90) := by
  unfold Char.isUpper
  rw [Bool.and_eq_true, decide_eq_true_eq, decide_eq_true_eq]
  unfold Char.toNat
  rw [ge_iff_le, uint32_le_iff, uint32_le_iff]
  have h65 : (65 : UInt32).toNat = 65 := rfl
  have h90 : (90 : UInt32).toNat = 90 := rfl
  rw [h65, h90]

/-- An uppercase character is already uppercase. -/
theorem char_toUpper_of_isUpper (c : Char) (h : c.isUpper = true) :
    c.toUpper = c := by
  unfold Char.toUpper
  rw [if_neg]
  rw [char_isUpper_iff] at h
  omega

/-- A character that is not uppercase is untouched by lowercasing. -/
theorem char_toLower_of_not_isUpper (c : Char) (h : c.isUpper = false) :
    c.toLower = c := by
  unfold Char.toLower
  rw [if_neg]
  rw [← Bool.not_eq_true, char_isUpper_iff] at h
  omega

/-- CLAIM C9: for every monoalphabetic substitution mapping (this covers
both `encrypt` and `decrypt`, which apply `mscApply` to their respective
mapping dicts) and every input text, the output has one character per
input character; a character whose lowercase form is absent from the
mapping appears unchanged at the same position; and a character whose
lowercase form maps to `v` appears as `v` re-cased to the case of the
input character. -/
theorem msc_case_and_passthrough :
    ∀ (mapping : List (Char × Char)) (text : List Char) (i : Nat)
      (hi : i < text.length),
      (mscApply mapping text).length = text.length ∧
      (dget mapping ((text.get ⟨i, hi⟩).toLower) = none →
        (mscApply mapping text).getD i ' ' = text.get ⟨i, hi⟩) ∧
      (∀ v, dget mapping ((text.get ⟨i, hi⟩).toLower) = some v →
        (mscApply mapping text).getD i ' ' =
          if (text.get ⟨i, hi⟩).isUpper then v.toUpper else v.toLower) := by
  intro mapping text i hi
  have hlen : (mscApply mapping text).length = text.length := by
    unfold mscApply
    exact List.length_map _ _
  have hch : (mscApply mapping text).getD i ' ' =
      mscChar mapping (text.get ⟨i, hi⟩) := by
    unfold mscApply
    rw [List.getD_eq_getElem _ _ (by simpa using hi), List.getElem_map]
    rfl
  refine ⟨hlen, ?_, ?_⟩
  · intro hnone
    rw [hch]
    unfold mscChar
    rw [hnone]
    simp only [Option.getD_none]
    cases hu : (text.get ⟨i, hi⟩).isUpper with
    | true =>
      rw [if_pos rfl]
      exact char_toUpper_of_isUpper _ hu
    | false =>
      rw [if_neg (by simp)]
      exact char_toLower_of_not_isUpper _ hu
  · intro v hv
    rw [hch]
    unfold mscChar
    rw [hv]
    rfl

/-- Witness for C9: lookup hit with re-casing, and passthrough. -/
theorem msc_case_and_passthrough_witness :
    (mscApply [('a', 'x')] "Ab".toList).length = "Ab".toList.length ∧
    (mscApply [('a', 'x')] " a".toList).getD 0 ' ' = ' ' :=
  ⟨(msc_case_and_passthrough [('a', 'x')] "Ab".toList 0 (by decide)).1,
   (msc_case_and_passthrough [('a', 'x')] " a".toList 0 (by decide)).2.1
     (by decide)⟩

/-! ## `Atbash` (`goldbug/cipher.py`, lines 103-122)

```python
def __init__(self, alphabet="abcdefghijklmnopqrstuvwxyz"):
    self.alphabet = alphabet.lower()
    self.encrypt_mapping = dict(zip(self.alphabet, self.alphabet[::-1]))
    self.decrypt_mapping = self.encrypt_mapping
```
Embedded at the default alphabet, which is the one the claims concern. -/

namespace Atbash

def encrypt_mapping : List (Char × Char) :=
  dfromList (asciiLowercase.zip asciiLowercase.reverse)

def encrypt (text : List Char) : List Char := mscApply encrypt_mapping text

/-- `decrypt_mapping` is the same dict, so decrypt = encrypt. -/
def decrypt (text : List Char) : List Char := mscApply encrypt_mapping text

end Atbash

/-! ## `Rot13` (`goldbug/cipher.py`, lines 489-502): `Caesar(13)`. -/

namespace Rot13

def encrypt (text : List Char) : List Char := Caesar.encrypt 13 text

def decrypt (text : List Char) : List Char := Caesar.decrypt 13 text

end Rot13

/-! ## `KamaSutra` (`goldbug/cipher.py`, lines 315-340)

```python
def __init__(self, key):
    self.key = key
    self.encrypt_mapping = {}
    for i in range(len(key)):
        self.encrypt_mapping[key[i]] = key[(i + len(key) // 2) % len(key)]
    self.decrypt_mapping = self.encrypt_mapping
```
-/

namespace KamaSutra

/-- The pairs inserted by the loop, in insertion order. -/
def mapping_pairs (key : List Char) : List (Char × Char) :=
  (List.range key.length).map
    (fun i => (key.getD i ' ',
               key.getD ((i + key.length / 2) % key.length) ' '))

def encrypt_mapping (key : List Char) : List (Char × Char) :=
  dfromList (mapping_pairs key)

def encrypt (key : List Char) (text : List Char) : List Char :=
  mscApply (encrypt_mapping key) text

def decrypt (key : List Char) (text : List Char) : List Char :=
  mscApply (encrypt_mapping key) text

end KamaSutra

/-! ### Association list lemmas for dicts with distinct keys -/

/-- Folding `dinsert` over pairs with fresh, distinct keys just appends
them. -/
theorem dfromList_fold_nodup {α : Type} :
    ∀ (ps : List (Char × α)) (acc : List (Char × α)),
      (ps.map Prod.fst).Nodup →
      (∀ k, k ∈ ps.map Prod.fst → acc.any (fun q => q.fst == k) = false) →
      ps.foldl (fun d p => dinsert d p.fst p.snd) acc = acc ++ ps := by
  intro ps
  induction ps with
  | nil => intro acc _ _; simp
  | cons p t ih =>
    intro acc hnd hfresh
    simp only [List.foldl_cons]
    have hp : acc.any (fun q => q.fst == p.fst) = false :=
      hfresh p.fst (by simp)
    have h1 : dinsert acc p.fst p.snd = acc ++ [p] := by
      unfold dinsert
      rw [if_neg (by rw [hp]; simp)]
    rw [h1, ih (acc ++ [p]) (by simp_all)]
    · simp
    · intro k hk
      rw [List.any_append]
      have h2 : acc.any (fun q => q.fst == k) = false :=
        hfresh k (by simp [hk])
      have h3 : ¬(p.fst == k) := by
        have hnd2 : (p.fst :: t.map Prod.fst).Nodup := by
          rw [List.map_cons] at hnd; exact hnd
        have := (List.nodup_cons.mp hnd2).1
        simp only [beq_iff_eq]
        rintro rfl
        exact this hk
      simp [h2, h3]

/-- `dict(pairs)` with distinct keys is just the pair list. -/
theorem dfromList_of_nodup {α : Type} (ps : List (Char × α))
    (hnd : (ps.map Prod.fst).Nodup) : dfromList ps = ps := by
  unfold dfromList
  rw [dfromList_fold_nodup ps [] hnd (by intro k _; rfl)]
  simp

/-- Lookup in an association list with distinct keys finds the unique
stored value. -/
theorem dget_of_nodup_mem {α : Type} :
    ∀ (ps : List (Char × α)) (c : Char) (v : α),
      (ps.map Prod.fst).Nodup → (c, v) ∈ ps → dget ps c = some v := by
  intro ps
  induction ps with
  | nil => intro c v _ h; simp at h
  | cons p t ih =>
    intro c v hnd hmem
    have hnd2 : (p.fst :: t.map Prod.fst).Nodup := by
      rw [List.map_cons] at hnd; exact hnd
    by_cases hc : p.fst = c
    · have hpv : p = (c, v) := by
        rcases List.mem_cons.mp hmem with h | h
        · exact h.symm
        · exfalso
          have hcs : c ∈ t.map Prod.fst :=
            List.mem_map.mpr ⟨(c, v), h, rfl⟩
          have := (List.nodup_cons.mp hnd2).1
          exact this (hc ▸ hcs)
      unfold dget
      rw [List.find?_cons_of_pos _ (by simp [hc])]
      simp [hpv]
    · have hmem2 : (c, v) ∈ t := by
        rcases List.mem_cons.mp hmem with h | h
        · exact absurd (congrArg Prod.fst h.symm) hc
        · exact h
      have := ih c v (List.nodup_cons.mp hnd2).2 hmem2
      unfold dget at this ⊢
      rwa [List.find?_cons_of_neg _ (by simp [hc])]

/-- Reading a list back off by indices. -/
theorem range_map_getD :
    ∀ (t : List Char) (n : Nat), n ≤ t.length →
      (List.range n).map (fun i => t.getD i ' ') = t.take n := by
  intro t
  induction t with
  | nil =>
    intro n hn
    have : n = 0 := by simpa using hn
    simp [this]
  | cons a t ih =>
    intro n hn
    cases n with
    | zero => simp
    | succ m =>
      rw [List.range_succ_eq_map, List.map_cons, List.map_map]
      have h1 : ((List.range m).map ((fun i => (a :: t).getD i ' ') ∘ Nat.succ))
          = (List.range m).map (fun i => t.getD i ' ') := by
        exact List.map_congr_left (fun i _ => rfl)
      rw [h1, ih m (by simpa using hn)]
      rfl

/-! ### Reciprocity of Atbash, Rot13 and Kama Sutra -/

/-- Characters the reciprocal substitution ciphers operate on: the
lowercase alphabet, plus its uppercase forms (handled by the case-folding
of `MonoalphabeticSubstitutionCipher`). -/
def alphabetChars : List Char := asciiLowercase ++ asciiUppercase

theorem atbash_char :
    ∀ c ∈ alphabetChars,
      mscChar Atbash.encrypt_mapping (mscChar Atbash.encrypt_mapping c) = c := by
  decide

theorem rot13_char :
    ∀ c ∈ alphabetChars,
      mscChar (Caesar.encrypt_mapping 13)
        (mscChar (Caesar.encrypt_mapping 13) c) = c := by
  decide

/-- Lifting a per-character involution to texts. -/
theorem msc_invol_text (m : List (Char × Char))
    (hch : ∀ c ∈ alphabetChars, mscChar m (mscChar m c) = c)
    (text : List Char) (ht : ∀ c ∈ text, c ∈ alphabetChars) :
    mscApply m (mscApply m text) = text := by
  unfold mscApply
  rw [List.map_map]
  have : ∀ c ∈ text, (mscChar m ∘ mscChar m) c = id c := by
    intro c hc
    exact hch c (ht c hc)
  rw [List.map_congr_left this, List.map_id]

/-- The keys of the Kama Sutra insertion sequence are exactly the key. -/
theorem kamasutra_pairs_fst (key : List Char) :
    (KamaSutra.mapping_pairs key).map Prod.fst = key := by
  unfold KamaSutra.mapping_pairs
  rw [List.map_map]
  rw [show (Prod.fst ∘ fun i => (key.getD i ' ',
      key.getD ((i + key.length / 2) % key.length) ' ')) =
      (fun i => key.getD i ' ') from rfl]
  rw [range_map_getD key key.length le_rfl, List.take_length]

/-- Per-character reciprocity of the Kama Sutra cipher for a key that is a
permutation of the 26-letter alphabet. -/
theorem kamasutra_char (key : List Char) (hperm : key.Perm asciiLowercase)
    (c : Char) (hc : c ∈ asciiLowercase) :
    mscChar (KamaSutra.encrypt_mapping key)
      (mscChar (KamaSutra.encrypt_mapping key) c) = c := by
  have hlen : key.length = 26 := by
    rw [hperm.length_eq]
    decide
  have hknd : key.Nodup := hperm.nodup_iff.mpr (by decide)
  have hfst := kamasutra_pairs_fst key
  have hdict : KamaSutra.encrypt_mapping key = KamaSutra.mapping_pairs key := by
    unfold KamaSutra.encrypt_mapping
    exact dfromList_of_nodup _ (by rw [hfst]; exact hknd)
  have hck : c ∈ key := hperm.mem_iff.mpr hc
  have hi : key.indexOf c < key.length := List.indexOf_lt_length.mpr hck
  -- the value the dict stores for a character at index i
  have hpair : ∀ i, i < key.length →
      dget (KamaSutra.encrypt_mapping key) (key.getD i ' ') =
        some (key.getD ((i + key.length / 2) % key.length) ' ') := by
    intro i hilt
    rw [hdict]
    refine dget_of_nodup_mem _ _ _ (by rw [hfst]; exact hknd) ?_
    unfold KamaSutra.mapping_pairs
    exact List.mem_map.mpr ⟨i, List.mem_range.mpr hilt, rfl⟩
  have hgetc : key.getD (key.indexOf c) ' ' = c := by
    rw [List.getD_eq_getElem _ _ hi]
    exact List.getElem_indexOf hi
  set i := key.indexOf c with hidef
  set j := (i + key.length / 2) % key.length with hjdef
  have hj : j < key.length := by
    rw [hjdef]
    exact Nat.mod_lt _ (by omega)
  set v := key.getD j ' ' with hvdef
  have hvj : v = key[j] := by
    rw [hvdef, List.getD_eq_getElem _ _ hj]
  have hvk : v ∈ key := by
    rw [hvj]
    exact List.getElem_mem hj
  have hva : v ∈ asciiLowercase := hperm.mem_iff.mp hvk
  have hidxv : key.indexOf v = j := by
    rw [hvj]
    exact List.indexOf_getElem hknd j hj
  have hgetv : dget (KamaSutra.encrypt_mapping key) v =
      some (key.getD ((j + key.length / 2) % key.length) ' ') := by
    have := hpair j hj
    rwa [← hvdef] at this
  have hback : (j + key.length / 2) % key.length = i := by
    rw [hjdef, hlen]
    have : i < 26 := by omega
    omega
  obtain ⟨hcu, hcl⟩ := lower_char_facts c hc
  obtain ⟨hvu, hvl⟩ := lower_char_facts v hva
  have h1 : mscChar (KamaSutra.encrypt_mapping key) c = v := by
    unfold mscChar
    rw [hcl]
    have hgc : dget (KamaSutra.encrypt_mapping key) c = some v := by
      have := hpair i hi
      rwa [hgetc, ← hvdef] at this
    rw [hgc, hcu]
    simpa using hvl
  have h2 : mscChar (KamaSutra.encrypt_mapping key) v = c := by
    unfold mscChar
    rw [hvl, hgetv, hback, hgetc, hvu]
    simpa using hcl
  rw [h1, h2]

/-! ## The Polybius coordinate square

`goldbug.util.Polybius` is used by the polygraphic ciphers but its code is
not among the provided sources; it is modelled from the spec here. -/

/-- Modelled from the spec: `goldbug.util.Polybius` (absent from the
provided sources).  "An n-dimensional fixed-size lookup grid mapping
characters to coordinate tuples and back"; only the two-dimensional case
is needed.  `contents` is the grid in row-major order and `side` its side
length. -/
structure Polybius where
  contents : List Char
  side : Nat

/-- Character → coordinate lookup `square[c]`.  Fails (`KeyError`) when the
character is not in the square. -/
def Polybius.coordOf (p : Polybius) (c : Char) : Option (Nat × Nat) :=
  if c ∈ p.contents then
    some (p.contents.indexOf c / p.side, p.contents.indexOf c % p.side)
  else none

/-- Coordinate → character lookup `square[r, c]` (row-major).  Fails when
the position is outside the grid. -/
def Polybius.charAt (p : Polybius) (rc : Nat × Nat) : Option Char :=
  p.contents.get? (rc.1 * p.side + rc.2)

/-- The integer square root, as the largest `k` with `k * k ≤ n` (written
by list search so that it evaluates by kernel reduction). -/
def intSqrt (n : Nat) : Nat :=
  (((List.range (n + 1)).filter (fun k => k * k ≤ n)).getLastD 0)

/-- Modelled from the spec: Polybius construction — "seed characters
(deduplicated, in order) fill the grid first, followed by remaining
alphabet characters in order"; the side length is the square root of the
cell count. -/
def mkPolybius (seed alphabet : List Char) : Polybius :=
  let contents :=
    (seed.foldl (fun acc c => if c ∈ acc then acc else acc ++ [c]) []) ++
      alphabet.filter (fun c => !seed.contains c)
  { contents := contents, side := intSqrt contents.length }

/-- A well-formed square: distinct cells filling an exact `n × n` grid. -/
def Polybius.Valid (p : Polybius) : Prop :=
  p.contents.Nodup ∧ p.contents.length = p.side * p.side ∧ 0 < p.side

/-- Looking up a member character gives in-range coordinates, and reading
that position back gives the character. -/
theorem polybius_coord_roundtrip (p : Polybius) (hv : p.Valid) (c : Char)
    (hc : c ∈ p.contents) :
    ∃ r t, p.coordOf c = some (r, t) ∧ r < p.side ∧ t < p.side ∧
      p.charAt (r, t) = some c := by
  obtain ⟨hnd, hlen, hpos⟩ := hv
  have hidx : p.contents.indexOf c < p.contents.length :=
    List.indexOf_lt_length.mpr hc
  refine ⟨p.contents.indexOf c / p.side, p.contents.indexOf c % p.side,
    by unfold Polybius.coordOf; rw [if_pos hc], ?_, ?_, ?_⟩
  · exact Nat.div_lt_of_lt_mul (by omega)
  · exact Nat.mod_lt _ hpos
  · unfold Polybius.charAt
    simp only
    rw [Nat.mul_comm (p.contents.indexOf c / p.side) p.side, Nat.div_add_mod]
    rw [List.get?_eq_getElem?, List.getElem?_eq_getElem hidx]
    congr 1
    exact List.getElem_indexOf hidx

/-- Reading an in-range position gives a member character whose
coordinates are that position. -/
theorem polybius_charAt_roundtrip (p : Polybius) (hv : p.Valid)
    (r t : Nat) (hr : r < p.side) (ht : t < p.side) :
    ∃ c, p.charAt (r, t) = some c ∧ c ∈ p.contents ∧
      p.coordOf c = some (r, t) := by
  obtain ⟨hnd, hlen, hpos⟩ := hv
  have hb : r * p.side + t < p.contents.length := by
    rw [hlen]
    calc r * p.side + t ≤ (p.side - 1) * p.side + t := by
          have : r ≤ p.side - 1 := by omega
          exact Nat.add_le_add_right (Nat.mul_le_mul_right _ this) t
      _ < p.side * p.side := by
          have h1 : (p.side - 1) * p.side + p.side = p.side * p.side := by
            cases p.side with
            | zero => omega
            | succ m =>
              have h2 : Nat.succ m - 1 = m := rfl
              rw [h2]
              ring
          omega
  refine ⟨p.contents[r * p.side + t], ?_, List.getElem_mem hb, ?_⟩
  · unfold Polybius.charAt
    simp only
    rw [List.get?_eq_getElem?, List.getElem?_eq_getElem hb]
  · unfold Polybius.coordOf
    rw [if_pos (List.getElem_mem hb)]
    rw [List.indexOf_getElem hnd _ hb]
    congr 2
    · rw [Nat.mul_comm r p.side, Nat.mul_add_div hpos, Nat.div_eq_of_lt ht]
      omega
    · rw [Nat.mul_comm r p.side, Nat.mul_add_mod, Nat.mod_eq_of_lt ht]

/-! ## `TwoSquare` (`goldbug/cipher.py`, lines 526-581)

```python
def encrypt(self, text):
    lastchar = text[-1] if len(text) % 2 == 1 else ''
    text = (c for c in text)
    cipher = []
    for a, b in zip(text, text):
        r1, c1 = self.keys[0][a]
        r2, c2 = self.keys[1][b]
        if self.horizontal:
            if r1 == r2: cipher.append(a); cipher.append(b)
            else:
                cipher.append(self.keys[0][r2, c1])
                cipher.append(self.keys[1][r1, c2])
        else:
            if c1 == c2: cipher.append(a); cipher.append(b)
            else:
                cipher.append(self.keys[0][r1, c2])
                cipher.append(self.keys[1][r2, c1])
    cipher.append(lastchar)
    return ''.join(cipher)

def decrypt(self, text):
    return self.encrypt(text)
```
The recursion below consumes the text two characters at a time, emitting a
trailing unpaired character unchanged — the same output the source
produces by stashing `lastchar` up front and appending it at the end.
Square lookups are in the `Option` monad (`none` = `KeyError`). -/

/-- One digraph of `TwoSquare.encrypt`. -/
def twoSquarePair (k0 k1 : Polybius) (horizontal : Bool) (a b : Char) :
    Option (Char × Char) := do
  let rc1 ← k0.coordOf a
  let rc2 ← k1.coordOf b
  if horizontal then
    if rc1.1 = rc2.1 then pure (a, b)
    else do
      let x ← k0.charAt (rc2.1, rc1.2)
      let y ← k1.charAt (rc1.1, rc2.2)
      pure (x, y)
  else
    if rc1.2 = rc2.2 then pure (a, b)
    else do
      let x ← k0.charAt (rc1.1, rc2.2)
      let y ← k1.charAt (rc2.1, rc1.2)
      pure (x, y)

namespace TwoSquare

def encrypt (k0 k1 : Polybius) (horizontal : Bool) :
    List Char → Option (List Char)
  | [] => some []
  | [c] => some [c]
  | a :: b :: rest => do
    let xy ← twoSquarePair k0 k1 horizontal a b
    let tail ← encrypt k0 k1 horizontal rest
    pure (xy.1 :: xy.2 :: tail)

/-- `TwoSquare.decrypt` just calls `encrypt`. -/
def decrypt (k0 k1 : Polybius) (horizontal : Bool) (text : List Char) :
    Option (List Char) :=
  encrypt k0 k1 horizontal text

end TwoSquare

/-- A single TwoSquare digraph transformation succeeds on square members
and is an involution. -/
theorem twoSquarePair_invol (k0 k1 : Polybius) (hor : Bool)
    (hv0 : k0.Valid) (hv1 : k1.Valid) (hside : k0.side = k1.side)
    (a b : Char) (ha : a ∈ k0.contents) (hb : b ∈ k1.contents) :
    ∃ x y, twoSquarePair k0 k1 hor a b = some (x, y) ∧
      x ∈ k0.contents ∧ y ∈ k1.contents ∧
      twoSquarePair k0 k1 hor x y = some (a, b) := by
  obtain ⟨r1, c1, hco1, hr1, hc1, hat1⟩ := polybius_coord_roundtrip k0 hv0 a ha
  obtain ⟨r2, c2, hco2, hr2, hc2, hat2⟩ := polybius_coord_roundtrip k1 hv1 b hb
  cases hor with
  | false =>
    by_cases heq : c1 = c2
    · refine ⟨a, b, ?_, ha, hb, ?_⟩ <;>
        simp [twoSquarePair, hco1, hco2, heq]
    · obtain ⟨x, hxat, hxmem, hxco⟩ :=
        polybius_charAt_roundtrip k0 hv0 r1 c2 hr1 (by omega)
      obtain ⟨y, hyat, hymem, hyco⟩ :=
        polybius_charAt_roundtrip k1 hv1 r2 c1 hr2 (by omega)
      have hne : ¬(c2 = c1) := fun h => heq h.symm
      refine ⟨x, y, ?_, hxmem, hymem, ?_⟩
      · simp [twoSquarePair, hco1, hco2, heq, hxat, hyat]
      · simp [twoSquarePair, hxco, hyco, hne, hat1, hat2]
  | true =>
    by_cases heq : r1 = r2
    · refine ⟨a, b, ?_, ha, hb, ?_⟩ <;>
        simp [twoSquarePair, hco1, hco2, heq]
    · obtain ⟨x, hxat, hxmem, hxco⟩ :=
        polybius_charAt_roundtrip k0 hv0 r2 c1 (by omega) hc1
      obtain ⟨y, hyat, hymem, hyco⟩ :=
        polybius_charAt_roundtrip k1 hv1 r1 c2 (by omega) hc2
      have hne : ¬(r2 = r1) := fun h => heq h.symm
      refine ⟨x, y, ?_, hxmem, hymem, ?_⟩
      · simp [twoSquarePair, hco1, hco2, heq, hxat, hyat]
      · simp [twoSquarePair, hxco, hyco, hne, hat1, hat2]

/-- TwoSquare encryption succeeds on texts over the shared alphabet and
is an involution. -/
theorem twoSquare_encrypt_invol (k0 k1 : Polybius) (hor : Bool)
    (hv0 : k0.Valid) (hv1 : k1.Valid)
    (hshare : ∀ c, c ∈ k0.contents ↔ c ∈ k1.contents) :
    ∀ (n : Nat) (text : List Char), text.length ≤ n →
      (∀ c ∈ text, c ∈ k0.contents) →
      ∃ out, TwoSquare.encrypt k0 k1 hor text = some out ∧
        (∀ c ∈ out, c ∈ k0.contents) ∧
        TwoSquare.encrypt k0 k1 hor out = some text := by
  have hperm : k0.contents.Perm k1.contents := by
    apply List.perm_of_nodup_nodup_toFinset_eq hv0.1 hv1.1
    ext c
    simp only [List.mem_toFinset]
    exact hshare c
  have hside : k0.side = k1.side := by
    have hlen := hperm.length_eq
    rw [hv0.2.1, hv1.2.1] at hlen
    have h0 := hv0.2.2
    have h1 := hv1.2.2
    nlinarith
  intro n
  induction n with
  | zero =>
    intro text hlen _
    have : text = [] := List.eq_nil_of_length_eq_zero (by omega)
    subst this
    exact ⟨[], rfl, by simp, rfl⟩
  | succ n ih =>
    intro text hlen hmem
    match text with
    | [] => exact ⟨[], rfl, by simp, rfl⟩
    | [c] =>
      refine ⟨[c], rfl, ?_, rfl⟩
      intro x hx
      rw [List.mem_singleton.mp hx]
      exact hmem c (by simp)
    | a :: b :: rest =>
      have ha : a ∈ k0.contents := hmem a (by simp)
      have hb : b ∈ k1.contents := (hshare b).mp (hmem b (by simp))
      obtain ⟨x, y, hxy, hxmem, hymem, hxyback⟩ :=
        twoSquarePair_invol k0 k1 hor hv0 hv1 hside a b ha hb
      obtain ⟨tail, htail, htailmem, htailback⟩ :=
        ih rest (by simp at hlen ⊢; omega)
          (fun c hc => hmem c (by simp [hc]))
      refine ⟨x :: y :: tail, ?_, ?_, ?_⟩
      · rw [TwoSquare.encrypt]
        rw [hxy, htail]
        rfl
      · intro c hc
        rcases List.mem_cons.mp hc with rfl | hc
        · exact hxmem
        · rcases List.mem_cons.mp hc with rfl | hc
          · exact (hshare c).mpr hymem
          · exact htailmem c hc
      · rw [TwoSquare.encrypt]
        rw [hxyback, htailback]
        rfl

/-- CLAIM C2: the reciprocal ciphers — Atbash, Rot13, KamaSutra with a key
that is a permutation of the 26-letter alphabet, and TwoSquare (either
arrangement, on two valid squares sharing an alphabet) — satisfy
`C.encrypt(C.encrypt(T)) == T` for every text `T` over the relevant
alphabet. -/
theorem reciprocal_ciphers :
    (∀ text : List Char, (∀ c ∈ text, c ∈ alphabetChars) →
      Atbash.encrypt (Atbash.encrypt text) = text) ∧
    (∀ text : List Char, (∀ c ∈ text, c ∈ alphabetChars) →
      Rot13.encrypt (Rot13.encrypt text) = text) ∧
    (∀ (key text : List Char), key.Perm asciiLowercase →
      (∀ c ∈ text, c ∈ asciiLowercase) →
      KamaSutra.encrypt key (KamaSutra.encrypt key text) = text) ∧
    (∀ (k0 k1 : Polybius) (hor : Bool) (text : List Char),
      k0.Valid → k1.Valid → (∀ c, c ∈ k0.contents ↔ c ∈ k1.contents) →
      (∀ c ∈ text, c ∈ k0.contents) →
      ∃ out, TwoSquare.encrypt k0 k1 hor text = some out ∧
        TwoSquare.encrypt k0 k1 hor out = some text) := by
  refine ⟨?_, ?_, ?_, ?_⟩
  · intro text ht
    exact msc_invol_text _ atbash_char text ht
  · intro text ht
    exact msc_invol_text _ rot13_char text ht
  · intro key text hperm ht
    unfold KamaSutra.encrypt mscApply
    rw [List.map_map]
    have h : ∀ c ∈ text,
        (mscChar (KamaSutra.encrypt_mapping key) ∘
          mscChar (KamaSutra.encrypt_mapping key)) c = id c :=
      fun c hc => kamasutra_char key hperm c (ht c hc)
    rw [List.map_congr_left h, List.map_id]
  · intro k0 k1 hor text hv0 hv1 hshare ht
    obtain ⟨out, h1, _, h2⟩ :=
      twoSquare_encrypt_invol k0 k1 hor hv0 hv1 hshare text.length text
        le_rfl ht
    exact ⟨out, h1, h2⟩

/-- Witness for C2 at concrete ciphers and texts. -/
theorem reciprocal_ciphers_witness :
    Atbash.encrypt (Atbash.encrypt "Zebra".toList) = "Zebra".toList ∧
    Rot13.encrypt (Rot13.encrypt "Hello".toList) = "Hello".toList ∧
    KamaSutra.encrypt "vqajflymsbckuhzdxtenorpwig".toList
      (KamaSutra.encrypt "vqajflymsbckuhzdxtenorpwig".toList
        "kamasutra".toList) = "kamasutra".toList ∧
    (∃ out,
      TwoSquare.encrypt ⟨"abcd".toList, 2⟩ ⟨"abcd".toList, 2⟩ false
        "ab".toList = some out ∧
      TwoSquare.encrypt ⟨"abcd".toList, 2⟩ ⟨"abcd".toList, 2⟩ false
        out = some "ab".toList) :=
  ⟨reciprocal_ciphers.1 _ (by decide),
   reciprocal_ciphers.2.1 _ (by decide),
   reciprocal_ciphers.2.2.1 _ _ (by decide) (by decide),
   reciprocal_ciphers.2.2.2 _ _ false _ ⟨by decide, by decide, by decide⟩
     ⟨by decide, by decide, by decide⟩ (fun c => Iff.rfl) (by decide)⟩

/-! ## `Column` (`goldbug/cipher.py`, lines 665-748)

```python
def encrypt(self, text):
    if len(text) % len(self.key):
        text += self.pad * (len(self.key) - len(text) % len(self.key))
    columns = [text[i::len(self.key)] for i in range(len(self.key))]
    columns = dict((k, v) for k, v in zip(self.key, columns))
    return ''.join(columns[k] for k in sorted(self.key))

def decrypt(self, text):
    if len(text) % len(self.key) != 0:
        raise ValueError('Not a valid ciphertext.')
    rows = len(text) // len(self.key)
    columns = [text[i * rows:(i + 1) * rows] for i in range(len(self.key))]
    columns = dict((k, c) for k, c in zip(sorted(self.key), columns))
    columns = [columns[c] for c in self.key]
    return ''.join(''.join(row) for row in zip(*columns)).rstrip(self.pad)
```

The extended slice `text[i::n]` is `takeEvery n (text.drop i)`;
`zip(*columns)` followed by joining all rows is `zipJoin`, which reads one
character off the front of every column until some column runs out.  Both
are written with a fuel argument (structural recursion) so that they
evaluate by kernel reduction; the fuel is always sufficient. -/

/-- Every `n`-th element of a list (`t[::n]`), fuelled. -/
def takeEveryF (n : Nat) : Nat → List Char → List Char
  | 0, _ => []
  | _, [] => []
  | fuel + 1, c :: rest => c :: takeEveryF n fuel (rest.drop (n - 1))

/-- Every `n`-th element of a list: the Python slice `t[::n]` (`n ≥ 1`). -/
def takeEvery (n : Nat) (t : List Char) : List Char := takeEveryF n t.length t

theorem takeEveryF_fuel (n : Nat) :
    ∀ (f g : Nat) (t : List Char), t.length ≤ f → t.length ≤ g →
      takeEveryF n f t = takeEveryF n g t := by
  intro f
  induction f with
  | zero =>
    intro g t ht _
    have : t = [] := List.eq_nil_of_length_eq_zero (by omega)
    subst this
    cases g <;> rfl
  | succ f ih =>
    intro g t ht hg
    match t with
    | [] => cases g <;> rfl
    | c :: rest =>
      match g with
      | 0 => simp at hg
      | g + 1 =>
        simp only [takeEveryF]
        congr 1
        apply ih <;> (rw [List.length_drop]; simp at ht hg; omega)

theorem takeEvery_nil (n : Nat) : takeEvery n [] = [] := rfl

theorem takeEvery_cons (n : Nat) (c : Char) (rest : List Char) :
    takeEvery n (c :: rest) = c :: takeEvery n (rest.drop (n - 1)) := by
  unfold takeEvery
  simp only [List.length_cons, takeEveryF]
  congr 1
  apply takeEveryF_fuel
  · rw [List.length_drop]; omega
  · exact le_rfl

/-- `''.join(''.join(row) for row in zip(*columns))`, fuelled. -/
def zipJoinF : Nat → List (List Char) → List Char
  | 0, _ => []
  | fuel + 1, cols =>
    if cols = [] ∨ cols.any (fun c => c.isEmpty) then []
    else (cols.map (fun c => c.headD ' ')) ++
      zipJoinF fuel (cols.map (fun c => c.tail))

/-- Row-major interleaving of the columns, stopping when a column runs
out: `zip(*columns)` joined. -/
def zipJoin (cols : List (List Char)) : List Char :=
  zipJoinF ((cols.map List.length).sum + 1) cols

/-- Taking the tails of nonempty columns strictly shrinks the total
length. -/
theorem sum_len_tail_lt :
    ∀ cols : List (List Char), cols ≠ [] → (∀ c ∈ cols, c ≠ []) →
      ((cols.map (fun c => c.tail)).map List.length).sum <
        (cols.map List.length).sum := by
  intro cols
  induction cols with
  | nil => intro h; exact absurd rfl h
  | cons c t ih =>
    intro _ hall
    have hc : c ≠ [] := hall c (by simp)
    have hclen : c.tail.length < c.length := by
      cases c with
      | nil => exact absurd rfl hc
      | cons x xs => simp
    cases t with
    | nil => simpa using hclen
    | cons d u =>
      have hrec := ih (by simp) (fun x hx => hall x (by simp [hx]))
      simp only [List.map_cons, List.sum_cons] at hrec ⊢
      omega

theorem zipJoinF_fuel :
    ∀ (s : Nat) (cols : List (List Char)) (f g : Nat),
      (cols.map List.length).sum = s → s < f → s < g →
      zipJoinF f cols = zipJoinF g cols := by
  intro s
  induction s using Nat.strong_induction_on with
  | _ s ih =>
    intro cols f g hs hf hg
    match f, g with
    | f + 1, g + 1 =>
      simp only [zipJoinF]
      by_cases hguard : cols = [] ∨ cols.any (fun c => c.isEmpty)
      · rw [if_pos hguard, if_pos hguard]
      · rw [if_neg hguard, if_neg hguard]
        push_neg at hguard
        have hne : cols ≠ [] := hguard.1
        have hall : ∀ c ∈ cols, c ≠ [] := by
          intro c hc
          have h2 := hguard.2
          simp only [ne_eq, Bool.not_eq_true, List.any_eq_false] at h2
          have h3 := h2 c hc
          simpa [List.isEmpty_iff] using h3
        have hlt := sum_len_tail_lt cols hne hall
        rw [hs] at hlt
        congr 1
        exact ih _ hlt _ _ _ rfl (by omega) (by omega)

theorem zipJoin_step (cols : List (List Char))
    (hne : cols ≠ []) (hall : ∀ c ∈ cols, c ≠ []) :
    zipJoin cols = (cols.map (fun c => c.headD ' ')) ++
      zipJoin (cols.map (fun c => c.tail)) := by
  unfold zipJoin
  rw [show ((cols.map List.length).sum + 1) =
      ((cols.map List.length).sum) + 1 from rfl]
  simp only [zipJoinF]
  rw [if_neg]
  · congr 1
    exact zipJoinF_fuel ((cols.map (fun c => c.tail)).map List.length).sum
      (cols.map (fun c => c.tail)) ((cols.map List.length).sum)
      (((cols.map (fun c => c.tail)).map List.length).sum + 1) rfl
      (sum_len_tail_lt cols hne hall) (Nat.lt_succ_self _)
  · push_neg
    refine ⟨hne, ?_⟩
    simp only [ne_eq, Bool.not_eq_true, List.any_eq_false]
    intro c hc
    simpa [List.isEmpty_iff] using hall c hc

theorem zipJoin_stop (cols : List (List Char))
    (h : cols = [] ∨ cols.any (fun c => c.isEmpty)) : zipJoin cols = [] := by
  unfold zipJoin
  simp only [zipJoinF]
  rw [if_pos h]

/-- `str.rstrip(pad)` for a single padding character. -/
def rstrip (pad : Char) (t : List Char) : List Char :=
  (t.reverse.dropWhile (fun c => c == pad)).reverse

/-- `sorted(self.key)`: Python's stable ascending sort by code point. -/
def sortKey (key : List Char) : List Char :=
  List.insertionSort (fun a b => a ≤ b) key

namespace Column

/-- The padding step of `Column.encrypt`. -/
def padText (key : List Char) (pad : Char) (text : List Char) : List Char :=
  if text.length % key.length = 0 then text
  else text ++ List.replicate (key.length - text.length % key.length) pad

/-- `[text[i::len(key)] for i in range(len(key))]` over the padded text. -/
def columnsOf (key : List Char) (pad : Char) (text : List Char) :
    List (List Char) :=
  (List.range key.length).map
    (fun i => takeEvery key.length ((padText key pad text).drop i))

def encrypt (key : List Char) (pad : Char) (text : List Char) : List Char :=
  ((sortKey key).map
    (fun k => (dget (dfromList (key.zip (columnsOf key pad text))) k).getD [])
  ).join

def decrypt (key : List Char) (pad : Char) (text : List Char) :
    Option (List Char) :=
  if text.length % key.length ≠ 0 then none
  else
    let rows := text.length / key.length
    let columns := (List.range key.length).map
      (fun i => (text.drop (i * rows)).take rows)
    let d := dfromList ((sortKey key).zip columns)
    let columns2 := key.map (fun c => (dget d c).getD [])
    some (rstrip pad (zipJoin columns2))

end Column

/-- CLAIM C3: `Column("CIPHER", pad='x')` encrypts `"thisisanexample"` to
exactly `"tapiaxsxxhnlieesmx"`, and decrypts that ciphertext back to
`"thisisanexample"` with the trailing padding stripped. -/
theorem column_cipher_example :
    Column.encrypt "CIPHER".toList 'x' "thisisanexample".toList =
      "tapiaxsxxhnlieesmx".toList ∧
    Column.decrypt "CIPHER".toList 'x' "tapiaxsxxhnlieesmx".toList =
      some "thisisanexample".toList := by
  constructor
  · decide
  · decide

/-! ### Correctness of columnar transposition (claim C10) -/

/-- Length of an `n`-step slice. -/
theorem takeEvery_length (n : Nat) (hn : 1 ≤ n) :
    ∀ (N : Nat) (t : List Char), t.length ≤ N →
      (takeEvery n t).length = (t.length + n - 1) / n := by
  intro N
  induction N with
  | zero =>
    intro t ht
    have h0 : t = [] := List.eq_nil_of_length_eq_zero (by omega)
    subst h0
    rw [takeEvery_nil]
    simp only [List.length_nil]
    rw [Nat.div_eq_of_lt (by omega)]
  | succ N ih =>
    intro t ht
    match t with
    | [] =>
      rw [takeEvery_nil]
      simp only [List.length_nil]
      rw [Nat.div_eq_of_lt (by omega)]
    | c :: rest =>
      rw [takeEvery_cons]
      simp only [List.length_cons]
      rw [ih _ (by rw [List.length_drop]; simp at ht; omega), List.length_drop]
      rcases Nat.lt_or_ge rest.length (n - 1) with h | h
      · have h1 : rest.length - (n - 1) = 0 := by omega
        have h2 : rest.length + 1 + n - 1 = rest.length + n := by omega
        rw [h1, h2, Nat.div_eq_of_lt (by omega), Nat.add_div_right _ (by omega),
          Nat.div_eq_of_lt (by omega)]
      · have h1 : rest.length - (n - 1) + n - 1 = rest.length := by omega
        have h2 : rest.length + 1 + n - 1 = rest.length + n := by omega
        rw [h1, h2, Nat.add_div_right _ (by omega)]

/-- Splitting the concatenation of equal-length blocks back up. -/
theorem join_blocks (rows : Nat) :
    ∀ (ls : List (List Char)), (∀ l ∈ ls, l.length = rows) →
      ∀ j, j < ls.length →
        ((ls.join).drop (j * rows)).take rows = ls.getD j [] := by
  intro ls
  induction ls with
  | nil =>
    intro _ j hj
    simp at hj
  | cons l rest ih =>
    intro hlen j hj
    cases j with
    | zero =>
      have hl : l.length = rows := hlen l (by simp)
      simp only [List.join_cons, Nat.zero_mul, List.drop_zero, List.getD_cons_zero]
      rw [← hl, List.take_left]
    | succ j =>
      have hl : l.length = rows := hlen l (by simp)
      have hoff : (j + 1) * rows = l.length + j * rows := by
        rw [hl]; ring
      simp only [List.join_cons, List.getD_cons_succ]
      rw [hoff, List.drop_append]
      exact ih (fun x hx => hlen x (by simp [hx])) j (by simpa using hj)

/-- The concatenation of `ls.length` blocks of length `rows`. -/
theorem join_length_const (rows : Nat) :
    ∀ ls : List (List Char), (∀ l ∈ ls, l.length = rows) →
      (ls.join).length = ls.length * rows := by
  intro ls
  induction ls with
  | nil => simp
  | cons l rest ih =>
    intro hlen
    simp only [List.join_cons, List.length_append, List.length_cons]
    rw [hlen l (by simp), ih (fun x hx => hlen x (by simp [hx]))]
    ring

/-- Interleaving the `k` residue-class slices of a text of length a
multiple of `k` recovers the text. -/
theorem zipJoin_columns (k : Nat) (hk : 1 ≤ k) :
    ∀ (N : Nat) (t : List Char), t.length ≤ N → k ∣ t.length →
      zipJoin ((List.range k).map (fun i => takeEvery k (t.drop i))) = t := by
  have hempty : zipJoin ((List.range k).map
      (fun i => takeEvery k (([] : List Char).drop i))) = [] := by
    apply zipJoin_stop
    right
    rw [List.any_eq_true]
    refine ⟨takeEvery k (([] : List Char).drop 0), ?_, ?_⟩
    · exact List.mem_map.mpr ⟨0, List.mem_range.mpr (by omega), rfl⟩
    · simp [takeEvery_nil]
  intro N
  induction N with
  | zero =>
    intro t ht _
    have h0 : t = [] := List.eq_nil_of_length_eq_zero (by omega)
    subst h0
    exact hempty
  | succ N ih =>
    intro t ht hdvd
    by_cases h0 : t = []
    · subst h0
      exact hempty
    · obtain ⟨m, hm⟩ := hdvd
      have hmpos : 1 ≤ m := by
        rcases Nat.eq_zero_or_pos m with h | h
        · exfalso
          apply h0
          apply List.eq_nil_of_length_eq_zero
          rw [h, Nat.mul_zero] at hm
          omega
        · exact h
      have hklen : k ≤ t.length := by
        calc k = k * 1 := by ring
          _ ≤ k * m := Nat.mul_le_mul_left k hmpos
          _ = t.length := hm.symm
      have hcols : ∀ i ∈ List.range k,
          takeEvery k (t.drop i) =
            t.getD i ' ' :: takeEvery k ((t.drop k).drop i) := by
        intro i hik
        have hik2 : i < k := List.mem_range.mp hik
        have hi : i < t.length := lt_of_lt_of_le hik2 hklen
        rw [List.drop_eq_getElem_cons hi, takeEvery_cons]
        congr 1
        · rw [List.getD_eq_getElem _ _ hi]
        · have harg : i + 1 + (k - 1) = k + i := by omega
          rw [List.drop_drop, List.drop_drop, harg]
      rw [List.map_congr_left hcols]
      have hne : ((List.range k).map
          (fun i => t.getD i ' ' :: takeEvery k ((t.drop k).drop i))) ≠ [] := by
        intro h
        have := congrArg List.length h
        simp at this
        omega
      have hall : ∀ c ∈ (List.range k).map
          (fun i => t.getD i ' ' :: takeEvery k ((t.drop k).drop i)), c ≠ [] := by
        intro c hc
        obtain ⟨i, _, hi⟩ := List.mem_map.mp hc
        rw [← hi]
        exact List.cons_ne_nil _ _
      rw [zipJoin_step _ hne hall]
      have hheads : (((List.range k).map
          (fun i => t.getD i ' ' :: takeEvery k ((t.drop k).drop i))).map
            (fun c => c.headD ' ')) = (List.range k).map (fun i => t.getD i ' ') := by
        rw [List.map_map]
        exact List.map_congr_left (fun i _ => rfl)
      have htails : (((List.range k).map
          (fun i => t.getD i ' ' :: takeEvery k ((t.drop k).drop i))).map
            (fun c => c.tail)) =
          (List.range k).map (fun i => takeEvery k ((t.drop k).drop i)) := by
        rw [List.map_map]
        exact List.map_congr_left (fun i _ => rfl)
      rw [hheads, htails, range_map_getD t k hklen]
      rw [ih (t.drop k) (by rw [List.length_drop]; omega)
        ⟨m - 1, by
          rw [List.length_drop, hm]
          cases m with
          | zero => omega
          | succ mm => rw [Nat.mul_succ, Nat.succ_sub_one]; omega⟩]
      exact List.take_append_drop k t

theorem dropWhile_replicate_append (pad : Char) (x : List Char) :
    ∀ m : Nat, (List.replicate m pad ++ x).dropWhile (fun c => c == pad) =
      x.dropWhile (fun c => c == pad) := by
  intro m
  induction m with
  | zero => simp
  | succ m ih =>
    rw [List.replicate_succ, List.cons_append,
      List.dropWhile_cons_of_pos (by simp)]
    exact ih

/-- Padding the text with trailing pad characters does not change what
`rstrip` returns. -/
theorem rstrip_append_replicate (pad : Char) (t : List Char) (m : Nat) :
    rstrip pad (t ++ List.replicate m pad) = rstrip pad t := by
  unfold rstrip
  rw [List.reverse_append, List.reverse_replicate, dropWhile_replicate_append]

/-- A text splits as its rstrip followed by its trailing pad run. -/
theorem rstrip_split (pad : Char) (t : List Char) :
    t = rstrip pad t ++ (t.reverse.takeWhile (fun c => c == pad)).reverse := by
  unfold rstrip
  conv_lhs => rw [← List.reverse_reverse t,
    ← List.takeWhile_append_dropWhile (fun c => c == pad) t.reverse]
  rw [List.reverse_append]

/-- `rstrip` returns a prefix of its input. -/
theorem rstrip_is_take (pad : Char) (t : List Char) :
    rstrip pad t = t.take (rstrip pad t).length := by
  obtain ⟨rest, hrest⟩ : ∃ rest, t = rstrip pad t ++ rest :=
    ⟨_, rstrip_split pad t⟩
  calc rstrip pad t
      = (rstrip pad t ++ rest).take (rstrip pad t).length :=
        (List.take_left _ _).symm
    _ = t.take (rstrip pad t).length := by rw [← hrest]

/-- When the text ends in the pad character, `rstrip` strictly shrinks. -/
theorem rstrip_length_lt (pad : Char) (t : List Char)
    (hlast : t.getLast? = some pad) : (rstrip pad t).length < t.length := by
  have hsplit := rstrip_split pad t
  have hlen := congrArg List.length hsplit
  rw [List.length_append, List.length_reverse] at hlen
  have htw : 1 ≤ (t.reverse.takeWhile (fun c => c == pad)).length := by
    have hrev : t.reverse.head? = some pad := by
      rw [List.head?_reverse]
      exact hlast
    cases hrv : t.reverse with
    | nil => rw [hrv] at hrev; simp at hrev
    | cons c rest2 =>
      rw [hrv] at hrev
      have hc : c = pad := by simpa using hrev
      rw [List.takeWhile_cons_of_pos (by simp [hc])]
      simp
  omega

/-- The padded text's length is a multiple of the key length, and the
padding is a trailing run of pad characters. -/
theorem padText_spec (key : List Char) (pad : Char) (t : List Char)
    (hk : 0 < key.length) :
    key.length ∣ (Column.padText key pad t).length ∧
    ∃ m, Column.padText key pad t = t ++ List.replicate m pad := by
  unfold Column.padText
  by_cases h : t.length % key.length = 0
  · rw [if_pos h]
    exact ⟨Nat.dvd_of_mod_eq_zero h, 0, by simp⟩
  · rw [if_neg h]
    refine ⟨?_, _, rfl⟩
    rw [List.length_append, List.length_replicate]
    have hdm := Nat.div_add_mod t.length key.length
    have hlt : t.length % key.length < key.length := Nat.mod_lt _ hk
    have hd2 : key.length * (t.length / key.length + 1) =
        key.length * (t.length / key.length) + key.length := by ring
    exact ⟨t.length / key.length + 1, by omega⟩

/-- Every column of the padded text has exactly `rows` characters. -/
theorem column_length (key : List Char) (pad : Char) (t : List Char)
    (hk : 0 < key.length) (q i : Nat)
    (hq : (Column.padText key pad t).length = key.length * q)
    (hi : i < key.length) :
    (takeEvery key.length ((Column.padText key pad t).drop i)).length = q := by
  rw [takeEvery_length key.length hk ((Column.padText key pad t).drop i).length
    _ le_rfl, List.length_drop, hq]
  rcases Nat.eq_zero_or_pos q with hq0 | hq0
  · subst hq0
    rw [Nat.mul_zero]
    rw [Nat.div_eq_of_lt (by omega)]
  · have hik : i < key.length * q := by
      calc i < key.length := hi
        _ = key.length * 1 := by ring
        _ ≤ key.length * q := Nat.mul_le_mul_left _ hq0
    have heq : key.length * q - i + key.length - 1 =
        key.length * q + (key.length - 1 - i) := by omega
    rw [heq, Nat.mul_add_div hk, Nat.div_eq_of_lt (by omega)]
    omega

/-- The encrypt-side dict lookup. -/
theorem column_dget_enc (key : List Char) (pad : Char) (t : List Char)
    (hnd : key.Nodup) (c : Char) (hc : c ∈ key) :
    dget (dfromList (key.zip (Column.columnsOf key pad t))) c =
      some (takeEvery key.length
        ((Column.padText key pad t).drop (key.indexOf c))) := by
  have hcols : (Column.columnsOf key pad t).length = key.length := by
    simp [Column.columnsOf]
  have hzk : (key.zip (Column.columnsOf key pad t)).map Prod.fst = key :=
    List.map_fst_zip _ _ (by omega)
  have hidx : key.indexOf c < key.length := List.indexOf_lt_length.mpr hc
  have hb : key.indexOf c < (key.zip (Column.columnsOf key pad t)).length := by
    rw [List.length_zip]
    omega
  have heq : (key.zip (Column.columnsOf key pad t))[key.indexOf c] =
      (c, takeEvery key.length
        ((Column.padText key pad t).drop (key.indexOf c))) := by
    rw [List.getElem_zip]
    congr 1
    · exact List.getElem_indexOf hidx
    · simp only [Column.columnsOf, List.getElem_map, List.getElem_range]
  have hmem := heq ▸ List.getElem_mem hb
  rw [dfromList_of_nodup _ (by rw [hzk]; exact hnd)]
  exact dget_of_nodup_mem _ _ _ (by rw [hzk]; exact hnd) hmem

/-- `Column.encrypt` is the concatenation of the columns in sorted-key
order. -/
theorem column_encrypt_eq (key : List Char) (pad : Char) (t : List Char)
    (hnd : key.Nodup) :
    Column.encrypt key pad t =
      ((sortKey key).map (fun c => takeEvery key.length
        ((Column.padText key pad t).drop (key.indexOf c)))).join := by
  unfold Column.encrypt
  congr 1
  apply List.map_congr_left
  intro c hcs
  have hc : c ∈ key := (List.perm_insertionSort _ key).mem_iff.mp hcs
  rw [column_dget_enc key pad t hnd c hc]
  rfl

/-- `Column.decrypt` on a length-aligned ciphertext, written out. -/
theorem column_decrypt_eq (key : List Char) (pad : Char) (ct : List Char)
    (h : ct.length % key.length = 0) :
    Column.decrypt key pad ct = some (rstrip pad (zipJoin (key.map (fun c =>
      (dget (dfromList ((sortKey key).zip ((List.range key.length).map
        (fun j => (ct.drop (j * (ct.length / key.length))).take
          (ct.length / key.length))))) c).getD [])))) := by
  unfold Column.decrypt
  rw [if_neg (by omega)]

/-- The decrypt-side dict lookup recovers each original column. -/
theorem column_dget_dec (key : List Char) (pad : Char) (t : List Char)
    (hnd : key.Nodup) (q : Nat)
    (hq : (Column.padText key pad t).length = key.length * q)
    (c : Char) (hc : c ∈ key) :
    dget (dfromList ((sortKey key).zip ((List.range key.length).map
      (fun j => ((Column.encrypt key pad t).drop (j * q)).take q)))) c =
      some (takeEvery key.length
        ((Column.padText key pad t).drop (key.indexOf c))) := by
  have hkpos : 0 < key.length := by
    have := List.indexOf_lt_length.mpr hc
    omega
  have hperm : (sortKey key).Perm key := List.perm_insertionSort _ key
  have hsnd : (sortKey key).Nodup := hperm.nodup_iff.mpr hnd
  have hslen : (sortKey key).length = key.length := hperm.length_eq
  have henc := column_encrypt_eq key pad t hnd
  have hslens : ∀ l ∈ (sortKey key).map (fun c => takeEvery key.length
      ((Column.padText key pad t).drop (key.indexOf c))), l.length = q := by
    intro l hl
    obtain ⟨d, hds, hdl⟩ := List.mem_map.mp hl
    rw [← hdl]
    exact column_length key pad t hkpos q (key.indexOf d) hq
      (List.indexOf_lt_length.mpr (hperm.mem_iff.mp hds))
  have hscols_len : ((sortKey key).map (fun c => takeEvery key.length
      ((Column.padText key pad t).drop (key.indexOf c)))).length = key.length := by
    rw [List.length_map, hslen]
  have hblocks : (List.range key.length).map
      (fun j => ((Column.encrypt key pad t).drop (j * q)).take q) =
      (sortKey key).map (fun c => takeEvery key.length
        ((Column.padText key pad t).drop (key.indexOf c))) := by
    apply List.ext_getElem
    · rw [List.length_map, List.length_range, hscols_len]
    · intro j h1 h2
      rw [List.getElem_map, List.getElem_range, henc]
      have hj : j < ((sortKey key).map (fun c => takeEvery key.length
          ((Column.padText key pad t).drop (key.indexOf c)))).length := by
        rw [hscols_len]
        simpa using h1
      rw [join_blocks q _ hslens j hj, List.getD_eq_getElem _ _ hj]
  rw [hblocks]
  have hzk : ((sortKey key).zip ((sortKey key).map (fun c =>
      takeEvery key.length
        ((Column.padText key pad t).drop (key.indexOf c))))).map Prod.fst =
      sortKey key :=
    List.map_fst_zip _ _ (by rw [hscols_len, hslen])
  rw [dfromList_of_nodup _ (by rw [hzk]; exact hsnd)]
  have hcs : c ∈ sortKey key := hperm.mem_iff.mpr hc
  have hsidx : (sortKey key).indexOf c < (sortKey key).length :=
    List.indexOf_lt_length.mpr hcs
  have hb : (sortKey key).indexOf c <
      ((sortKey key).zip ((sortKey key).map (fun c => takeEvery key.length
        ((Column.padText key pad t).drop (key.indexOf c))))).length := by
    rw [List.length_zip, List.length_map]
    omega
  have heq : ((sortKey key).zip ((sortKey key).map (fun c =>
      takeEvery key.length
        ((Column.padText key pad t).drop (key.indexOf c)))))[
          (sortKey key).indexOf c] =
      (c, takeEvery key.length
        ((Column.padText key pad t).drop (key.indexOf c))) := by
    rw [List.getElem_zip]
    have hmap : ((sortKey key).map (fun c => takeEvery key.length
        ((Column.padText key pad t).drop (key.indexOf c))))[
          (sortKey key).indexOf c] =
        takeEvery key.length ((Column.padText key pad t).drop
          (key.indexOf ((sortKey key)[(sortKey key).indexOf c]))) :=
      List.getElem_map _
    rw [hmap, List.getElem_indexOf hsidx]
  have hmem := heq ▸ List.getElem_mem hb
  exact dget_of_nodup_mem _ _ _ (by rw [hzk]; exact hsnd) hmem

/-- Decrypting an encryption always yields the padded plaintext with
trailing pad characters stripped. -/
theorem column_roundtrip_core (key : List Char) (pad : Char) (t : List Char)
    (hk : key ≠ []) (hnd : key.Nodup) :
    Column.decrypt key pad (Column.encrypt key pad t) =
      some (rstrip pad (Column.padText key pad t)) := by
  have hkpos : 0 < key.length := List.length_pos.mpr hk
  obtain ⟨⟨q, hq⟩, -⟩ := padText_spec key pad t hkpos
  have hperm : (sortKey key).Perm key := List.perm_insertionSort _ key
  have henc := column_encrypt_eq key pad t hnd
  have hslens : ∀ l ∈ (sortKey key).map (fun c => takeEvery key.length
      ((Column.padText key pad t).drop (key.indexOf c))), l.length = q := by
    intro l hl
    obtain ⟨d, hds, hdl⟩ := List.mem_map.mp hl
    rw [← hdl]
    exact column_length key pad t hkpos q (key.indexOf d) hq
      (List.indexOf_lt_length.mpr (hperm.mem_iff.mp hds))
  have hctlen : (Column.encrypt key pad t).length = key.length * q := by
    rw [henc, join_length_const q _ hslens, List.length_map, hperm.length_eq]
  have hmod : (Column.encrypt key pad t).length % key.length = 0 := by
    rw [hctlen]
    exact Nat.mul_mod_right _ _
  have hdivq : (Column.encrypt key pad t).length / key.length = q := by
    rw [hctlen]
    exact Nat.mul_div_cancel_left q hkpos
  rw [column_decrypt_eq key pad _ hmod, hdivq]
  congr 2
  have hcols2 : key.map (fun c =>
      (dget (dfromList ((sortKey key).zip ((List.range key.length).map
        (fun j => ((Column.encrypt key pad t).drop (j * q)).take q)))) c).getD
          []) =
      (List.range key.length).map (fun i => takeEvery key.length
        ((Column.padText key pad t).drop i)) := by
    apply List.ext_getElem
    · simp
    · intro i h1 h2
      rw [List.getElem_map, List.getElem_map, List.getElem_range]
      rw [column_dget_dec key pad t hnd q hq _ (List.getElem_mem _)]
      simp only [Option.getD_some]
      congr 2
      exact List.indexOf_getElem hnd i _
  rw [hcols2]
  exact zipJoin_columns key.length hkpos _ _ le_rfl ⟨q, hq⟩

/-- CLAIM C10: `Column.decrypt` strips every trailing occurrence of the
pad character from its result, so for every plaintext whose own last
character equals the pad character, decrypting its encryption returns a
strictly shorter proper prefix of the plaintext. -/
theorem column_decrypt_strips_pad (key : List Char) (pad : Char)
    (t : List Char) (hk : key ≠ []) (hnd : key.Nodup)
    (hlast : t.getLast? = some pad) :
    Column.decrypt key pad (Column.encrypt key pad t) =
      some (rstrip pad t) ∧
    ∃ m, m < t.length ∧ rstrip pad t = t.take m := by
  have hkpos : 0 < key.length := List.length_pos.mpr hk
  obtain ⟨-, m, hm⟩ := padText_spec key pad t hkpos
  constructor
  · rw [column_roundtrip_core key pad t hk hnd, hm, rstrip_append_replicate]
  · exact ⟨(rstrip pad t).length, rstrip_length_lt pad t hlast,
      rstrip_is_take pad t⟩

/-- Witness for C10 with the default pad and a plaintext ending in it. -/
theorem column_decrypt_strips_pad_witness :
    (Column.decrypt "CIPHER".toList 'x'
        (Column.encrypt "CIPHER".toList 'x' "endsinx".toList) =
      some (rstrip 'x' "endsinx".toList) ∧
    ∃ m, m < "endsinx".toList.length ∧
      rstrip 'x' "endsinx".toList = "endsinx".toList.take m) :=
  column_decrypt_strips_pad "CIPHER".toList 'x' "endsinx".toList
    (by decide) (by decide) (by decide)

/-! ## `RailFence` (`goldbug/cipher.py`, lines 750-849)

```python
def encrypt(self, text):
    if self.key == 1:
        return text
    rails = [[] for _ in range(self.key)]
    indices = itertools.cycle(list(range(self.key - 1)) +
                              list(range(self.key - 1, 0, -1)))
    for c in text:
        rails[next(indices)].append(c)
    return ''.join(sum(rails, []))
```

The cyclic index generator yields, for the `j`-th character, the entry of
the pattern `[0 .. key-2] ++ [key-1 .. 1]` at position `j` modulo the
pattern length; appending each character to its rail and concatenating the
rails top to bottom makes rail `r` the subsequence of characters whose
position lands on rail `r`, in order.  This is the `filter`-over-`enum`
formulation below.

```python
def decrypt(self, text):
    if self.key == 1:
        return text
    rows = []
    rowend = int(math.ceil(self.__periods(len(text))))
    rows.append(text[:rowend])
    rowstart = rowend
    for i in range(1, self.key - 1):
        periods = self.__periods(len(text) - i)
        rowend = int(rowstart +
            math.ceil(self.__periods(len(text) - i)) +
            math.ceil(self.__periods(len(text) - i - (self.key - i - 1) * 2)))
        rows.append(text[rowstart:rowend])
        rowstart = rowend
    rows.append(text[rowstart:])
    gens = [(c for c in row) for row in rows]
    indices = itertools.cycle(list(range(self.key - 1)) +
                              list(range(self.key - 1, 0, -1)))
    return ''.join(next(gens[next(indices)]) for _ in range(len(text)))

def __periods(self, length):
    return float(length) / ((self.key - 1) * 2)
```

`__periods` divides by `(key - 1) * 2` in floating point; for key = 3 the
divisor is 4, a power of two, so the division and `math.ceil` are exact
and coincide with the exact integer ceiling `periodsCeil` used here.  The
final generator loop is `readZig`: at step `j` it pops one character off
row `railIdx key j`. -/

/-- `list(range(key - 1)) + list(range(key - 1, 0, -1))`. -/
def railPattern (key : Nat) : List Nat :=
  List.range (key - 1) ++ (List.range (key - 1)).map (fun i => key - 1 - i)

/-- The rail on which the `j`-th character of the text lands. -/
def railIdx (key : Nat) (j : Nat) : Nat :=
  (railPattern key).getD (j % (railPattern key).length) 0

/-- `int(math.ceil(length / ((key - 1) * 2)))` with an exact ceiling. -/
def periodsCeil (key : Nat) (length : Int) : Int :=
  -((-length) / (((key : Int) - 1) * 2))

/-- The final read-off loop of `RailFence.decrypt`: one character is taken
from the front of row `railIdx key j` at each step `j`. -/
def readZig (key : Nat) : List (List Char) → Nat → Nat → List Char
  | _, _, 0 => []
  | rows, j, fuel + 1 =>
    let r := railIdx key j
    let row := rows.getD r []
    row.headD ' ' :: readZig key (rows.set r row.tail) (j + 1) fuel

namespace RailFence

def encrypt (key : Nat) (t : List Char) : List Char :=
  if key = 1 then t
  else ((List.range key).map (fun r =>
    (t.enum.filter (fun p => railIdx key p.fst = r)).map Prod.snd)).join

def decrypt (key : Nat) (t : List Char) : List Char :=
  if key = 1 then t
  else
    let L : Int := t.length
    let top : Nat := (periodsCeil key L).toNat
    let step := fun (acc : Nat × List (List Char)) (i : Nat) =>
      let rowend := acc.fst + ((periodsCeil key (L - i)) +
        (periodsCeil key (L - i - ((key : Int) - i - 1) * 2))).toNat
      (rowend, acc.snd ++ [(t.drop acc.fst).take (rowend - acc.fst)])
    let mid := ((List.range (key - 2)).map (fun n => n + 1)).foldl step
      (top, [t.take top])
    let rows := mid.snd ++ [t.drop mid.fst]
    readZig key rows 0 t.length

end RailFence

/-- The rail index pattern for key 3 is `[0, 1, 2, 1]`, so the rail is a
function of the position modulo 4. -/
theorem railIdx3 (j : Nat) :
    railIdx 3 j = if j % 4 = 0 then 0 else if j % 4 = 2 then 2 else 1 := by
  have h4 : j % 4 = 0 ∨ j % 4 = 1 ∨ j % 4 = 2 ∨ j % 4 = 3 := by omega
  unfold railIdx
  have hp : railPattern 3 = [0, 1, 2, 1] := by decide
  rw [hp]
  rcases h4 with h | h | h | h <;> simp [h]

/-- Filtering an enumeration on a position predicate has the same length
as filtering the positions. -/
theorem filter_enum_fst_length (pred : Nat → Bool) :
    ∀ (s : List Char) (j : Nat),
      ((s.enumFrom j).filter (fun p => pred p.fst)).length =
        ((List.range' j s.length).filter pred).length := by
  intro s
  induction s with
  | nil => intro j; rfl
  | cons c rest ih =>
    intro j
    rw [List.enumFrom_cons, List.length_cons, List.range'_succ,
      List.filter_cons, List.filter_cons]
    by_cases h : pred j
    · simp only [h, if_pos]
      simp [ih (j + 1)]
    · simp only [h]
      simp [ih (j + 1)]

/-- Position counts of the three rails for key 3: these are exactly the
row lengths `ceil(L/4)`, `ceil((L-1)/4) + ceil((L-3)/4)` and the rest. -/
theorem range_filter_rail_len :
    ∀ L : Nat,
      ((List.range L).filter (fun p => railIdx 3 p = 0)).length = (L + 3) / 4 ∧
      ((List.range L).filter (fun p => railIdx 3 p = 1)).length =
        (L + 2) / 4 + L / 4 ∧
      ((List.range L).filter (fun p => railIdx 3 p = 2)).length = (L + 1) / 4 := by
  intro L
  induction L with
  | zero => refine ⟨rfl, rfl, rfl⟩
  | succ L ih =>
    obtain ⟨h0, h1, h2⟩ := ih
    have hsucc : List.range (L + 1) = List.range L ++ [L] := List.range_succ L
    have hsplit : ∀ r : Nat,
        ((List.range (L + 1)).filter (fun p => railIdx 3 p = r)).length =
          ((List.range L).filter (fun p => railIdx 3 p = r)).length +
          (if railIdx 3 L = r then 1 else 0) := by
      intro r
      rw [hsucc, List.filter_append, List.length_append]
      congr 1
      rw [List.filter_cons]
      by_cases h : railIdx 3 L = r
      · simp [h]
      · simp [h]
    rw [hsplit 0, hsplit 1, hsplit 2, h0, h1, h2]
    have h4 : L % 4 = 0 ∨ L % 4 = 1 ∨ L % 4 = 2 ∨ L % 4 = 3 := by omega
    rcases h4 with h | h | h | h <;>
      rw [railIdx3 L] <;> simp only [h] <;> norm_num <;> omega

/-- The characters landing on rail `r`, reading the text from position
`j` onwards. -/
def railFrom (r j : Nat) (s : List Char) : List Char :=
  ((s.enumFrom j).filter (fun p => railIdx 3 p.fst = r)).map Prod.snd

theorem railFrom_cons (r j : Nat) (c : Char) (rest : List Char) :
    railFrom r j (c :: rest) =
      if railIdx 3 j = r then c :: railFrom r (j + 1) rest
      else railFrom r (j + 1) rest := by
  unfold railFrom
  rw [List.enumFrom_cons, List.filter_cons]
  by_cases h : railIdx 3 j = r
  · simp [h]
  · simp [h]

/-- The read-off loop undoes the distribution into the three rails. -/
theorem readZig3 :
    ∀ (s : List Char) (j : Nat),
      readZig 3 [railFrom 0 j s, railFrom 1 j s, railFrom 2 j s] j
        s.length = s := by
  intro s
  induction s with
  | nil => intro j; rfl
  | cons c rest ih =>
    intro j
    have h3 : railIdx 3 j = 0 ∨ railIdx 3 j = 1 ∨ railIdx 3 j = 2 := by
      rw [railIdx3]
      by_cases h0 : j % 4 = 0
      · simp [h0]
      · by_cases h2 : j % 4 = 2 <;> simp [h0, h2]
    rw [List.length_cons]
    rcases h3 with h | h | h
    · have e0 : railFrom 0 j (c :: rest) = c :: railFrom 0 (j + 1) rest := by
        rw [railFrom_cons, if_pos h]
      have e1 : railFrom 1 j (c :: rest) = railFrom 1 (j + 1) rest := by
        rw [railFrom_cons, if_neg (by omega)]
      have e2 : railFrom 2 j (c :: rest) = railFrom 2 (j + 1) rest := by
        rw [railFrom_cons, if_neg (by omega)]
      rw [e0, e1, e2]
      simp only [readZig, h, List.getD_cons_zero, List.getD_cons_succ,
        List.headD_cons, List.tail_cons, List.set_cons_zero,
        List.set_cons_succ]
      rw [ih (j + 1)]
    · have e0 : railFrom 0 j (c :: rest) = railFrom 0 (j + 1) rest := by
        rw [railFrom_cons, if_neg (by omega)]
      have e1 : railFrom 1 j (c :: rest) = c :: railFrom 1 (j + 1) rest := by
        rw [railFrom_cons, if_pos h]
      have e2 : railFrom 2 j (c :: rest) = railFrom 2 (j + 1) rest := by
        rw [railFrom_cons, if_neg (by omega)]
      rw [e0, e1, e2]
      simp only [readZig, h, List.getD_cons_zero, List.getD_cons_succ,
        List.headD_cons, List.tail_cons, List.set_cons_zero,
        List.set_cons_succ]
      rw [ih (j + 1)]
    · have e0 : railFrom 0 j (c :: rest) = railFrom 0 (j + 1) rest := by
        rw [railFrom_cons, if_neg (by omega)]
      have e1 : railFrom 1 j (c :: rest) = railFrom 1 (j + 1) rest := by
        rw [railFrom_cons, if_neg (by omega)]
      have e2 : railFrom 2 j (c :: rest) = c :: railFrom 2 (j + 1) rest := by
        rw [railFrom_cons, if_pos h]
      rw [e0, e1, e2]
      simp only [readZig, h, List.getD_cons_zero, List.getD_cons_succ,
        List.headD_cons, List.tail_cons, List.set_cons_zero,
        List.set_cons_succ]
      rw [ih (j + 1)]

theorem railfence3_encrypt_eq (t : List Char) :
    RailFence.encrypt 3 t =
      railFrom 0 0 t ++ (railFrom 1 0 t ++ (railFrom 2 0 t ++ [])) := by
  unfold RailFence.encrypt
  rw [if_neg (by omega)]
  rfl

theorem railFrom_len (t : List Char) (r : Nat) :
    (railFrom r 0 t).length =
      ((List.range t.length).filter (fun p => railIdx 3 p = r)).length := by
  unfold railFrom
  rw [List.length_map, filter_enum_fst_length (fun n => railIdx 3 n = r) t 0,
    ← List.range_eq_range']

theorem periodsCeil3 (x : Int) : periodsCeil 3 x = -((-x) / 4) := by
  unfold periodsCeil
  norm_num

/-- `RailFence.decrypt` with key 3, written out. -/
theorem railfence_decrypt3_eq (ct : List Char) :
    RailFence.decrypt 3 ct =
      readZig 3 [ct.take (periodsCeil 3 (ct.length : Int)).toNat,
        (ct.drop (periodsCeil 3 (ct.length : Int)).toNat).take
          ((periodsCeil 3 (ct.length : Int)).toNat +
            (periodsCeil 3 ((ct.length : Int) - 1) +
             periodsCeil 3 ((ct.length : Int) - 1 -
               (((3 : Nat) : Int) - 1 - 1) * 2)).toNat -
            (periodsCeil 3 (ct.length : Int)).toNat),
        ct.drop ((periodsCeil 3 (ct.length : Int)).toNat +
          (periodsCeil 3 ((ct.length : Int) - 1) +
           periodsCeil 3 ((ct.length : Int) - 1 -
             (((3 : Nat) : Int) - 1 - 1) * 2)).toNat)]
        0 ct.length := by
  unfold RailFence.decrypt
  rw [if_neg (by omega)]
  rfl

/-- CLAIM C5: rail fence with key 3 round-trips every text, of any
length (including 0, 1, 2 and lengths not a multiple of the period 4). -/
theorem railfence3_roundtrip (t : List Char) :
    RailFence.decrypt 3 (RailFence.encrypt 3 t) = t := by
  obtain ⟨hA, hB, hC⟩ := range_filter_rail_len t.length
  have hAlen : (railFrom 0 0 t).length = (t.length + 3) / 4 := by
    rw [railFrom_len, hA]
  have hBlen : (railFrom 1 0 t).length = (t.length + 2) / 4 + t.length / 4 := by
    rw [railFrom_len, hB]
  have hClen : (railFrom 2 0 t).length = (t.length + 1) / 4 := by
    rw [railFrom_len, hC]
  have henc := railfence3_encrypt_eq t
  have hctlen : (RailFence.encrypt 3 t).length = t.length := by
    rw [henc]
    simp only [List.length_append, List.length_nil]
    omega
  rw [railfence_decrypt3_eq, hctlen]
  simp only [periodsCeil3]
  have hc3 : (((3 : Nat) : Int) - 1 - 1) * 2 = 2 := by norm_num
  rw [hc3]
  have ha : (-(-((t.length : Nat) : Int) / 4)).toNat = (t.length + 3) / 4 := by
    omega
  have hb : (-(-(((t.length : Nat) : Int) - 1) / 4) +
      -(-(((t.length : Nat) : Int) - 1 - 2) / 4)).toNat =
      (t.length + 2) / 4 + t.length / 4 := by
    omega
  rw [ha, hb]
  have hab : (t.length + 3) / 4 +
      ((t.length + 2) / 4 + t.length / 4) - (t.length + 3) / 4 =
      (t.length + 2) / 4 + t.length / 4 := by
    omega
  rw [hab]
  have hrow0 : (RailFence.encrypt 3 t).take ((t.length + 3) / 4) =
      railFrom 0 0 t := by
    rw [henc, ← hAlen, List.take_left]
  have hrow1 : ((RailFence.encrypt 3 t).drop ((t.length + 3) / 4)).take
      ((t.length + 2) / 4 + t.length / 4) = railFrom 1 0 t := by
    rw [henc, ← hAlen, List.drop_left, ← hBlen, List.take_left]
  have hrow2 : (RailFence.encrypt 3 t).drop
      ((t.length + 3) / 4 + ((t.length + 2) / 4 + t.length / 4)) =
      railFrom 2 0 t := by
    rw [henc, ← hAlen, ← hBlen, List.drop_append, List.drop_left,
      List.append_nil]
  rw [hrow0, hrow1, hrow2]
  exact readZig3 t 0

/-! ## `Playfair` (`goldbug/cipher.py`, lines 363-487)

```python
def encrypt(self, text):
    return ''.join(self.__polyb(b) for b in self.__plain_pairs(text))

def decrypt(self, text):
    return ''.join(self.__polyb(b, True) for b in self.__cipher_pairs(text))

def __plain_pairs(self, text):
    text = ''.join(self.omitted.get(c, c) for c in text)
    while self.breaker + self.breaker in text:
        text = text.replace(self.breaker + self.breaker, self.breaker)
    text += self.padding
    plain = (c for c in text.lower() if c in self.alphabet)
    for a, b in izip(plain, plain):
        if a == b:
            yield a, self.breaker
            c = next(plain)
            while c == b:
                yield b, self.breaker
                c = next(plain)
            yield b, c
        else:
            yield a, b

def __cipher_pairs(self, text):
    if len(text) % 2 != 0:
        raise ValueError('Ciphertext of uneven length!')
    cipher = (self.omitted.get(c, c) for c in text)
    for a, b in zip(cipher, cipher):
        if a == b:
            raise ValueError('Invalid ciphertext!')
        yield a, b
```

Modelling notes: the `omitted` dict is modelled as character-to-character
(the claims use the default `{'j': 'i'}`).  The repeated
`replace(breaker*2, breaker)` loop collapses every run of breaker
characters to a single one, which is `collapseBr`.  The pairing generator
is the fuelled state machine `ppF`: state `none` draws a fresh pair (the
trailing lone character, if any, is dropped, as `izip` drops it), state
`some b` is inside the `while c == b` run; exhaustion of the stream ends
the generator.  `__polyb` looks the digraph up in the square and fails
(`KeyError`) on characters outside it. -/

/-- `self.alphabet`: the lowercase alphabet minus the omitted letters. -/
def alphabetOf (omitted : List (Char × Char)) : List Char :=
  asciiLowercase.filter (fun c => (dget omitted c).isNone)

/-- The 25-letter Playfair alphabet for the default `omitted = {'j': 'i'}`. -/
def alphabet25 : List Char := "abcdefghiklmnopqrstuvwxyz".toList

def collapseBrF (br : Char) : Nat → List Char → List Char
  | 0, _ => []
  | _, [] => []
  | fuel + 1, a :: rest =>
    if a = br then a :: collapseBrF br fuel (rest.dropWhile (fun c => c = br))
    else a :: collapseBrF br fuel rest

/-- Collapse every run of breaker characters to a single one. -/
def collapseBr (br : Char) (t : List Char) : List Char :=
  collapseBrF br t.length t

/-- The digraph generator of `__plain_pairs` as a fuelled state machine. -/
def ppF (breaker : Char) : Nat → Option Char → List Char → List (Char × Char)
  | 0, _, _ => []
  | _, none, [] => []
  | _, none, [_] => []
  | fuel + 1, none, a :: b :: rest =>
    if a = b then (a, breaker) :: ppF breaker fuel (some b) rest
    else (a, b) :: ppF breaker fuel none rest
  | _, some _, [] => []
  | fuel + 1, some b, c :: rest =>
    if c = b then (b, breaker) :: ppF breaker fuel (some b) rest
    else (b, c) :: ppF breaker fuel none rest

/-- `Playfair.__plain_pairs`. -/
def plainPairs (breaker padding : Char) (omitted : List (Char × Char))
    (text : List Char) : List (Char × Char) :=
  let text1 := text.map (fun c => (dget omitted c).getD c)
  let text2 := collapseBr breaker text1
  let text3 := text2 ++ [padding]
  let plain := (text3.map Char.toLower).filter (fun c => c ∈ alphabetOf omitted)
  ppF breaker plain.length none plain

/-- The pairing loop of `Playfair.__cipher_pairs` (after the omitted
substitution): fails on a digraph with identical letters. -/
def pairsOfEven : List Char → Option (List (Char × Char))
  | [] => some []
  | [_] => none
  | a :: b :: rest =>
    if a = b then none
    else (pairsOfEven rest).map (fun ps => (a, b) :: ps)

/-- `Playfair.__cipher_pairs`. -/
def cipherPairs (omitted : List (Char × Char)) (text : List Char) :
    Option (List (Char × Char)) :=
  if text.length % 2 ≠ 0 then none
  else pairsOfEven (text.map (fun c => (dget omitted c).getD c))

/-- `Playfair.__polyb`: translate one digraph through the square.
`(x - 1) % 5` in Python equals `(x + 4) % 5` here. -/
def polyb (sq : Polybius) (dec : Bool) (d : Char × Char) :
    Option (List Char) := do
  let rc1 ← sq.coordOf d.fst
  let rc2 ← sq.coordOf d.snd
  if rc1.fst ≠ rc2.fst ∧ rc1.snd ≠ rc2.snd then
    let x ← sq.charAt (rc1.fst, rc2.snd)
    let y ← sq.charAt (rc2.fst, rc1.snd)
    pure [x, y]
  else if rc1.fst = rc2.fst then
    let c1 := if dec then (rc1.snd + 4) % 5 else (rc1.snd + 1) % 5
    let c2 := if dec then (rc2.snd + 4) % 5 else (rc2.snd + 1) % 5
    let x ← sq.charAt (rc1.fst, c1)
    let y ← sq.charAt (rc2.fst, c2)
    pure [x, y]
  else
    let r1 := if dec then (rc1.fst + 4) % 5 else (rc1.fst + 1) % 5
    let r2 := if dec then (rc2.fst + 4) % 5 else (rc2.fst + 1) % 5
    let x ← sq.charAt (r1, rc1.snd)
    let y ← sq.charAt (r2, rc2.snd)
    pure [x, y]

namespace Playfair

def encrypt (sq : Polybius) (breaker padding : Char)
    (omitted : List (Char × Char)) (text : List Char) : Option (List Char) :=
  ((plainPairs breaker padding omitted text).mapM (polyb sq false)).map
    List.join

def decrypt (sq : Polybius) (omitted : List (Char × Char))
    (text : List Char) : Option (List Char) :=
  (cipherPairs omitted text).bind
    (fun ps => (ps.mapM (polyb sq true)).map List.join)

end Playfair

/-- CLAIM C7: Playfair inserts the breaker between the letters of a
would-be identical digraph before pairing (`"balloon"` pairs as
`ba lx lo on`), completes an incomplete final digraph with the padding
letter (`"cat"` pairs as `ca tz`), and the re-paired digraph stream is
exactly what gets enciphered (`encrypt` maps `__polyb` over
`__plain_pairs`; with the key-less square, `"balloon"` encrypts to
`"cbnvmppo"`). -/
theorem playfair_breaker_and_padding :
    plainPairs 'x' 'z' [('j', 'i')] "balloon".toList =
      [('b', 'a'), ('l', 'x'), ('l', 'o'), ('o', 'n')] ∧
    plainPairs 'x' 'z' [('j', 'i')] "cat".toList =
      [('c', 'a'), ('t', 'z')] ∧
    Playfair.encrypt (mkPolybius [] alphabet25) 'x' 'z' [('j', 'i')]
      "balloon".toList = some "cbnvmppo".toList ∧
    (∀ (sq : Polybius) (text : List Char),
      Playfair.encrypt sq 'x' 'z' [('j', 'i')] text =
        ((plainPairs 'x' 'z' [('j', 'i')] text).mapM (polyb sq false)).map
          List.join) := by
  refine ⟨by decide, by decide, by decide, fun sq text => rfl⟩

/-- The pairing loop fails exactly when some digraph repeats a letter. -/
theorem pairsOfEven_none_iff :
    ∀ (N : Nat) (s : List Char), s.length ≤ N → s.length % 2 = 0 →
      (pairsOfEven s = none ↔
        ∃ i, 2 * i + 1 < s.length ∧
          s.getD (2 * i) ' ' = s.getD (2 * i + 1) ' ') := by
  intro N
  induction N with
  | zero =>
    intro s hlen _
    have h0 : s = [] := List.eq_nil_of_length_eq_zero (by omega)
    subst h0
    simp [pairsOfEven]
  | succ N ih =>
    intro s hlen hpar
    match s with
    | [] => simp [pairsOfEven]
    | [a] => simp at hpar
    | a :: b :: rest =>
      simp only [List.length_cons] at hlen hpar
      by_cases hab : a = b
      · constructor
        · intro _
          refine ⟨0, by simp only [List.length_cons]; omega, ?_⟩
          simpa using hab
        · intro _
          simp [pairsOfEven, hab]
      · have hres := ih rest (by omega) (by omega)
        have heq : pairsOfEven (a :: b :: rest) =
            (pairsOfEven rest).map (fun ps => (a, b) :: ps) := by
          simp [pairsOfEven, hab]
        rw [heq, Option.map_eq_none']
        constructor
        · intro hnone
          obtain ⟨i, hi, hieq⟩ := hres.mp hnone
          refine ⟨i + 1, by simp only [List.length_cons]; omega, ?_⟩
          have h1 : 2 * (i + 1) = (2 * i + 1) + 1 := by ring
          rw [h1, List.getD_cons_succ, List.getD_cons_succ,
            List.getD_cons_succ, List.getD_cons_succ]
          exact hieq
        · rintro ⟨i, hi, hieq⟩
          cases i with
          | zero => simp at hieq; exact absurd hieq hab
          | succ j =>
            apply hres.mpr
            refine ⟨j, by simp only [List.length_cons] at hi; omega, ?_⟩
            have h1 : 2 * (j + 1) = (2 * j + 1) + 1 := by ring
            rw [h1, List.getD_cons_succ, List.getD_cons_succ,
              List.getD_cons_succ, List.getD_cons_succ] at hieq
            exact hieq

/-- Every letter of every produced digraph comes from the ciphertext. -/
theorem pairsOfEven_mem :
    ∀ (N : Nat) (s : List Char) (ps : List (Char × Char)), s.length ≤ N →
      pairsOfEven s = some ps → ∀ p ∈ ps, p.fst ∈ s ∧ p.snd ∈ s := by
  intro N
  induction N with
  | zero =>
    intro s ps hlen hps
    have h0 : s = [] := List.eq_nil_of_length_eq_zero (by omega)
    subst h0
    simp only [pairsOfEven, Option.some.injEq] at hps
    subst hps
    simp
  | succ N ih =>
    intro s ps hlen hps
    match s with
    | [] =>
      simp only [pairsOfEven, Option.some.injEq] at hps
      subst hps
      simp
    | [a] => simp [pairsOfEven] at hps
    | a :: b :: rest =>
      by_cases hab : a = b
      · simp [pairsOfEven, hab] at hps
      · have heq : pairsOfEven (a :: b :: rest) =
            (pairsOfEven rest).map (fun ps => (a, b) :: ps) := by
          simp [pairsOfEven, hab]
        rw [heq, Option.map_eq_some'] at hps
        obtain ⟨ps2, hps2, hcons⟩ := hps
        subst hcons
        intro p hp
        rcases List.mem_cons.mp hp with rfl | hp
        · exact ⟨by simp, by simp⟩
        · have := ih rest ps2 (by simp at hlen; omega) hps2 p hp
          exact ⟨List.mem_cons_of_mem _ (List.mem_cons_of_mem _ this.1),
            List.mem_cons_of_mem _ (List.mem_cons_of_mem _ this.2)⟩

/-- `__polyb` succeeds on any digraph of square members (5×5 square). -/
theorem polyb_isSome (sq : Polybius) (hv : sq.Valid) (hside : sq.side = 5)
    (dec : Bool) (a b : Char) (ha : a ∈ sq.contents) (hb : b ∈ sq.contents) :
    ∃ out, polyb sq dec (a, b) = some out := by
  obtain ⟨r1, c1, hco1, hr1, hc1, -⟩ := polybius_coord_roundtrip sq hv a ha
  obtain ⟨r2, c2, hco2, hr2, hc2, -⟩ := polybius_coord_roundtrip sq hv b hb
  rw [hside] at hr1 hc1 hr2 hc2
  have hat : ∀ r c : Nat, r < 5 → c < 5 → ∃ ch, sq.charAt (r, c) = some ch := by
    intro r c hr hc
    obtain ⟨ch, h1, -, -⟩ :=
      polybius_charAt_roundtrip sq hv r c (by omega) (by omega)
    exact ⟨ch, h1⟩
  by_cases h1 : r1 ≠ r2 ∧ c1 ≠ c2
  · obtain ⟨x, hx⟩ := hat r1 c2 hr1 hc2
    obtain ⟨y, hy⟩ := hat r2 c1 hr2 hc1
    exact ⟨[x, y], by simp [polyb, hco1, hco2, h1, hx, hy]⟩
  · by_cases h2 : r1 = r2
    · obtain ⟨x, hx⟩ := hat r1 (if dec then (c1 + 4) % 5 else (c1 + 1) % 5)
        hr1 (by cases dec <;> simp <;> omega)
      obtain ⟨y, hy⟩ := hat r2 (if dec then (c2 + 4) % 5 else (c2 + 1) % 5)
        hr2 (by cases dec <;> simp <;> omega)
      rw [h2] at hx
      exact ⟨[x, y], by simp [polyb, hco1, hco2, h1, h2, hx, hy]⟩
    · have hcc : c1 = c2 := by tauto
      obtain ⟨x, hx⟩ := hat (if dec then (r1 + 4) % 5 else (r1 + 1) % 5) c1
        (by cases dec <;> simp <;> omega) hc1
      obtain ⟨y, hy⟩ := hat (if dec then (r2 + 4) % 5 else (r2 + 1) % 5) c2
        (by cases dec <;> simp <;> omega) hc2
      rw [hcc] at hx
      exact ⟨[x, y], by simp [polyb, hco1, hco2, h2, hcc, hx, hy]⟩

/-- Mapping `__polyb` over digraphs that all succeed succeeds. -/
theorem mapM_polyb_isSome (sq : Polybius) (dec : Bool) :
    ∀ ps : List (Char × Char),
      (∀ p ∈ ps, ∃ out, polyb sq dec p = some out) →
      ∃ r, ps.mapM (polyb sq dec) = some r := by
  intro ps
  induction ps with
  | nil => exact fun _ => ⟨[], rfl⟩
  | cons p t ih =>
    intro h
    obtain ⟨out, hout⟩ := h p (by simp)
    obtain ⟨r, hr⟩ := ih (fun q hq => h q (by simp [hq]))
    refine ⟨out :: r, ?_⟩
    rw [List.mapM_cons, hout, hr]
    rfl

/-- CLAIM C6: with the default omitted mapping `{'j': 'i'}` and a valid
5×5 square over the 25-letter alphabet, `Playfair.decrypt` fails exactly
on ill-formed ciphertexts: it returns a plaintext iff the ciphertext has
even length and no digraph with two identical letters (for texts over the
25-letter alphabet the omitted-letter mapping is the identity). -/
theorem playfair_decrypt_error_conditions (sq : Polybius) (text : List Char)
    (hperm : sq.contents.Perm alphabet25) (hside : sq.side = 5)
    (htext : ∀ c ∈ text, c ∈ alphabet25) :
    (Playfair.decrypt sq [('j', 'i')] text).isSome ↔
      (text.length % 2 = 0 ∧
        ∀ i, 2 * i + 1 < text.length →
          text.getD (2 * i) ' ' ≠ text.getD (2 * i + 1) ' ') := by
  have hv : sq.Valid := by
    refine ⟨hperm.nodup_iff.mpr (by decide), ?_, by omega⟩
    rw [hperm.length_eq, hside]
    decide
  have hmap_id : text.map (fun c => (dget [('j', 'i')] c).getD c) = text := by
    have hall : ∀ c ∈ alphabet25, dget [('j', 'i')] c = none := by decide
    have hid : ∀ c ∈ text, (dget [('j', 'i')] c).getD c = id c := by
      intro c hc
      rw [hall c (htext c hc)]
      rfl
    rw [List.map_congr_left hid, List.map_id]
  unfold Playfair.decrypt cipherPairs
  rw [hmap_id]
  by_cases hpar : text.length % 2 = 0
  · rw [if_neg (by omega)]
    by_cases hbad : ∃ i, 2 * i + 1 < text.length ∧
        text.getD (2 * i) ' ' = text.getD (2 * i + 1) ' '
    · have hnone : pairsOfEven text = none :=
        (pairsOfEven_none_iff text.length text le_rfl hpar).mpr hbad
      rw [hnone]
      simp only [Option.none_bind, Option.isSome_none]
      constructor
      · intro h
        simp at h
      · rintro ⟨-, hno⟩
        obtain ⟨i, hi, hieq⟩ := hbad
        exact absurd hieq (hno i hi)
    · have hsome : pairsOfEven text ≠ none := fun h =>
        hbad ((pairsOfEven_none_iff text.length text le_rfl hpar).mp h)
      obtain ⟨ps, hps⟩ := Option.ne_none_iff_exists'.mp hsome
      rw [hps]
      have hmem := pairsOfEven_mem text.length text ps le_rfl hps
      have hpolyb : ∀ p ∈ ps, ∃ out, polyb sq true p = some out := by
        intro p hp
        have h := polyb_isSome sq hv hside true p.fst p.snd
          (hperm.mem_iff.mpr (htext _ (hmem p hp).1))
          (hperm.mem_iff.mpr (htext _ (hmem p hp).2))
        simpa using h
      obtain ⟨r, hr⟩ := mapM_polyb_isSome sq true ps hpolyb
      constructor
      · intro _
        exact ⟨hpar, fun i hi hieq => hbad ⟨i, hi, hieq⟩⟩
      · intro _
        rw [Option.some_bind, hr]
        rfl
  · rw [if_pos (by omega)]
    simp only [Option.none_bind, Option.isSome_none]
    constructor
    · intro h
      simp at h
    · rintro ⟨h, -⟩
      exact absurd h hpar

/-- Witness for C6: the key-less square decrypting a well-formed
two-letter ciphertext. -/
theorem playfair_decrypt_error_conditions_witness :
    (Playfair.decrypt (mkPolybius [] alphabet25) [('j', 'i')]
        "ab".toList).isSome ↔
      ("ab".toList.length % 2 = 0 ∧
        ∀ i, 2 * i + 1 < "ab".toList.length →
          "ab".toList.getD (2 * i) ' ' ≠ "ab".toList.getD (2 * i + 1) ' ') :=
  playfair_decrypt_error_conditions (mkPolybius [] alphabet25) "ab".toList
    (by decide) (by decide) (by decide)

/-! ## `Affine` (`goldbug/cipher.py`, lines 60-101)

```python
def __init__(self, key, alphabet='abcdefghijklmnopqrstuvwxyz'):
    self.alphabet = alphabet.lower()
    self.key = key
    a, b = key
    # Decryption mapping.
    # Doing this one first so we don't have to waste time if a doesn't
    # have a multiplicative inverse modulo len(alphabet).
    mmi = util.mmi(a, len(alphabet))
    self.decrypt_mapping = dict(
        (c, alphabet[mmi * (alphabet.index(c) - b) % len(alphabet)])
        for c in alphabet)
    self.encrypt_mapping = dict(
        (c, alphabet[(a * alphabet.index(c) + b) % len(alphabet)])
        for c in alphabet)
```

`util.mmi` is absent from the provided sources and is modelled from the
spec.  Construction fails (`Option.none`) exactly when `mmi` fails; both
mappings are built eagerly at construction. -/

/-- Modelled from the spec: `goldbug.util.mmi` — "Modular inverse: an
integer m⁻¹ such that (m × m⁻¹) mod n = 1"; it fails when no inverse
exists.  Modelled as a search for the least inverse below `n`. -/
def mmi (a : Int) (n : Nat) : Option Nat :=
  (List.range n).find? (fun x => (a * x) % (n : Int) == 1)

namespace Affine

/-- `Affine.__init__`: `none` when key coefficient `a` has no inverse
modulo the alphabet length; otherwise the pair
(encrypt_mapping, decrypt_mapping). -/
def init (a b : Int) (alphabet : List Char) :
    Option (List (Char × Char) × List (Char × Char)) :=
  (mmi a alphabet.length).map (fun (m : Nat) =>
    (dfromList (alphabet.map (fun c =>
      (c, alphabet.getD
        (((a * (alphabet.indexOf c : Int) + b) % (alphabet.length : Int)).toNat)
        ' '))),
     dfromList (alphabet.map (fun c =>
      (c, alphabet.getD
        ((((m : Int) * ((alphabet.indexOf c : Int) - b)) %
          (alphabet.length : Int)).toNat) ' ')))))

end Affine

/-- The inverse search only depends on `a` modulo 26. -/
theorem mmi_emod_26 (a : Int) : mmi a 26 = mmi (a % 26) 26 := by
  unfold mmi
  congr 1
  funext x
  have h26 : ((26 : Nat) : Int) = 26 := by norm_num
  have h : (a * (x : Int)) % ((26 : Nat) : Int) =
      (a % 26 * (x : Int)) % ((26 : Nat) : Int) := by
    rw [h26]
    conv_lhs => rw [Int.mul_emod]
    conv_rhs => rw [Int.mul_emod]
    rw [Int.emod_emod_of_dvd a (dvd_refl (26 : Int))]
  rw [h]

/-- The gcd with 26 only depends on `a` modulo 26. -/
theorem int_gcd_emod_26 (a : Int) : Int.gcd (a % 26) 26 = Int.gcd a 26 := by
  have hdef : a % 26 = a - 26 * (a / 26) := by omega
  apply Nat.dvd_antisymm
  · apply Int.natCast_dvd_natCast.mp
    apply Int.dvd_gcd
    · have h1 : (Int.gcd (a % 26) 26 : Int) ∣ a % 26 := Int.gcd_dvd_left
      have h2 : (Int.gcd (a % 26) 26 : Int) ∣ 26 := Int.gcd_dvd_right
      have h3 : a = a % 26 + 26 * (a / 26) := by omega
      nth_rewrite 2 [h3]
      exact dvd_add h1 (Dvd.dvd.mul_right h2 _)
    · exact Int.gcd_dvd_right
  · apply Int.natCast_dvd_natCast.mp
    apply Int.dvd_gcd
    · have h1 : (Int.gcd a 26 : Int) ∣ a := Int.gcd_dvd_left
      have h2 : (Int.gcd a 26 : Int) ∣ 26 := Int.gcd_dvd_right
      rw [hdef]
      exact dvd_sub h1 (Dvd.dvd.mul_right h2 _)
    · exact Int.gcd_dvd_right

/-- The decided fact: over one period of residues, the inverse search
succeeds exactly for residues coprime to 26. -/
theorem mmi_residues : ∀ r : Fin 26,
    (mmi ((r : Nat) : Int) 26).isSome = decide (Nat.gcd (r : Nat) 26 = 1) := by
  decide

/-- CLAIM C8: Affine construction fails exactly when the multiplicative
key coefficient shares a factor with the 26-letter alphabet length — in
particular for a = 2 — and succeeds for every key with
gcd(a, 26) = 1; the failure is the `mmi` call made eagerly in
`__init__`, before any mapping is used. -/
theorem affine_construction_gcd :
    Affine.init 2 0 asciiLowercase = none ∧
    ∀ a b : Int, (Affine.init a b asciiLowercase).isSome ↔ Int.gcd a 26 = 1 := by
  constructor
  · decide
  · intro a b
    have hlen : asciiLowercase.length = 26 := by decide
    have hinit : (Affine.init a b asciiLowercase).isSome =
        (mmi a 26).isSome := by
      unfold Affine.init
      rw [hlen]
      cases mmi a 26 <;> rfl
    have hr0 : (0 : Int) ≤ a % 26 := by omega
    have hrlt : a % 26 < 26 := by omega
    set r : Nat := (a % 26).toNat with hrdef
    have hcast : ((r : Nat) : Int) = a % 26 := by omega
    have hrb : r < 26 := by omega
    have hres := mmi_residues ⟨r, hrb⟩
    rw [hinit, mmi_emod_26, ← hcast]
    have hgcd : Int.gcd (((r : Nat) : Int)) 26 = Nat.gcd r 26 := by
      simp [Int.gcd]
    constructor
    · intro h
      rw [hres] at h
      have := of_decide_eq_true h
      rw [← int_gcd_emod_26 a, ← hcast, hgcd]
      exact this
    · intro h
      rw [← int_gcd_emod_26 a, ← hcast, hgcd] at h
      rw [hres]
      exact decide_eq_true h
